import Mathlib

/-!
Shallow embedding of the `bst-rs` binary search tree library
(`src/node.rs` node algebra and `src/lib.rs` containers) and proofs of
its specification's testable properties.

`HeapNode α` models Rust's `type HeapNode<T> = Option<Box<Node<T>>>`:
`HeapNode.nil` is `None` and `HeapNode.node v l r` is
`Some(Box::new(Node { value: v, left: l, right: r }))`.
Rust's `value.cmp(&node.value)` three-way comparison is translated as
`if value < x then Less else if x < value then Greater else Equal`.
-/

namespace BstRs

inductive HeapNode (α : Type) where
  | nil : HeapNode α
  | node (value : α) (left : HeapNode α) (right : HeapNode α) : HeapNode α
deriving Repr, DecidableEq

namespace HeapNode

variable {α : Type}

/-- Number of nodes reachable from a link (proof helper). -/
def tsize : HeapNode α → Nat
  | .nil => 0
  | .node _ l r => 1 + tsize l + tsize r

/-- Canonical pre-order value sequence (proof helper). -/
def preOrder : HeapNode α → List α
  | .nil => []
  | .node x l r => x :: preOrder l ++ preOrder r

/-- Canonical in-order value sequence (proof helper). -/
def inOrder : HeapNode α → List α
  | .nil => []
  | .node x l r => inOrder l ++ x :: inOrder r

/-- Canonical post-order value sequence (proof helper). -/
def postOrder : HeapNode α → List α
  | .nil => []
  | .node x l r => postOrder l ++ postOrder r ++ [x]

/-- Number of levels of a tree: 0 for an absent tree (proof helper). -/
def depth : HeapNode α → Nat
  | .nil => 0
  | .node _ l r => 1 + max (depth l) (depth r)

/-- Values found at a given depth, left to right (proof helper). -/
def atDepth : HeapNode α → Nat → List α
  | .nil, _ => []
  | .node x _ _, 0 => [x]
  | .node _ l r, d + 1 => atDepth l d ++ atDepth r d

end HeapNode

open HeapNode

variable {α : Type}

/-- `Node::recursive_height` (src/node.rs:159-169): `-1` for an absent
tree, else `1 + max(height(left), height(right))`. -/
def recursive_height : HeapNode α → Int
  | .nil => -1
  | .node _ l r => 1 + max (recursive_height l) (recursive_height r)

/-- Children pushed onto the BFS queue by one node: the left link if
present, then the right link if present (guards `.is_some()` in
src/node.rs:145-150, 390-395). -/
def bfsChildren : HeapNode α → List (HeapNode α)
  | .nil => []
  | .node _ l r =>
    (match l with | .nil => [] | t => [t]) ++
    (match r with | .nil => [] | t => [t])

/-- One whole level of `Node::iterative_height`'s queue: children of all
queued nodes, in queue order. -/
def levelChildren : List (HeapNode α) → List (HeapNode α)
  | [] => []
  | t :: q => bfsChildren t ++ levelChildren q

/-- `true` iff every queued link is a present node. A `.nil` entry makes
`Node::iterative_height`'s inner `unwrap` panic (src/node.rs:144). -/
def allNodes : List (HeapNode α) → Bool
  | [] => true
  | .nil :: _ => false
  | .node _ _ _ :: q => allNodes q

/-- Total node count of a queue (termination measure helper). -/
def qsize : List (HeapNode α) → Nat
  | [] => 0
  | t :: q => tsize t + qsize q

theorem qsize_levelChildren_lt (q : List (HeapNode α)) (hq : allNodes q = true)
    (hne : q ≠ []) : qsize (levelChildren q) < qsize q := by
  induction q with
  | nil => exact absurd rfl hne
  | cons t q ih =>
    cases t with
    | nil => simp [allNodes] at hq
    | node x l r =>
      simp only [allNodes] at hq
      have hch : qsize (bfsChildren (HeapNode.node x l r)) = tsize l + tsize r := by
        cases l <;> cases r <;> simp [bfsChildren, qsize, tsize]
      have hq2 : qsize (levelChildren q) ≤ qsize q := by
        rcases q with _ | ⟨t2, q2⟩
        · simp [levelChildren, qsize]
        · exact le_of_lt (ih hq (by simp))
      have : qsize (levelChildren (HeapNode.node x l r :: q))
          = tsize l + tsize r + qsize (levelChildren q) := by
        simp only [levelChildren]
        have : ∀ a b : List (HeapNode α), qsize (a ++ b) = qsize a + qsize b := by
          intro a b
          induction a with
          | nil => simp [qsize]
          | cons u a iha => simp [qsize, iha]; omega
        rw [this, hch]
      rw [this]
      simp only [qsize, tsize]
      omega

/-- The loop of `Node::iterative_height` (src/node.rs:136-157): breadth
first level counting over a queue of links, incrementing `height` per
level. A `.nil` entry in a non-empty queue is popped and unwrapped,
which panics; the panic is modelled as `none`. -/
def iterHeightLoop : List (HeapNode α) → Int → Option Int
  | [], h => some h
  | t :: q, h =>
    if hall : allNodes (t :: q) = true then
      iterHeightLoop (levelChildren (t :: q)) (h + 1)
    else
      none
termination_by q _ => qsize q
decreasing_by
  exact qsize_levelChildren_lt _ hall (by simp)

/-- `Node::iterative_height` (src/node.rs:136-157): pushes the root link
unconditionally, then counts levels. On an absent root the first pop's
`unwrap` panics (modelled as `none`); otherwise `some` of the height. -/
def iterative_height (root : HeapNode α) : Option Int :=
  iterHeightLoop [root] (-1)

variable [LinearOrder α]

/-- `Node::iterative_insert` (src/node.rs:22-33): descend comparing `value`
with each node, rejecting on equality; place a fresh node in the absent
slot reached. Returns the updated link and `true` for `Ok(())`,
`false` for `Err(())`. -/
def iterative_insert (value : α) : HeapNode α → HeapNode α × Bool
  | .nil => (.node value .nil .nil, true)
  | .node x l r =>
    if value < x then
      let p := iterative_insert value l
      (.node x p.1 r, p.2)
    else if x < value then
      let p := iterative_insert value r
      (.node x l p.1, p.2)
    else
      (.node x l r, false)

/-- `Node::recursive_insert` (src/node.rs:35-53): node-level recursive
insertion; `x`, `l`, `r` are the fields of `self`. Returns the updated
node (always a `.node`) and the success flag. -/
def recursive_insert (value : α) : α → HeapNode α → HeapNode α → HeapNode α × Bool
  | x, l, r =>
    if value < x then
      match l with
      | .nil => (.node x (.node value .nil .nil) r, true)
      | .node lx ll lr =>
        let p := recursive_insert value lx ll lr
        (.node x p.1 r, p.2)
    else if x < value then
      match r with
      | .nil => (.node x l (.node value .nil .nil), true)
      | .node rx rl rr =>
        let p := recursive_insert value rx rl rr
        (.node x l p.1, p.2)
    else
      (.node x l r, false)
termination_by x l r => tsize l + tsize r
decreasing_by
  · simp [tsize]; omega
  · simp [tsize]; omega

/-- `Node::iterative_contains` (src/node.rs:55-65). -/
def iterative_contains (value : α) : HeapNode α → Bool
  | .nil => false
  | .node x l r =>
    if value < x then iterative_contains value l
    else if x < value then iterative_contains value r
    else true

/-- `Node::recursive_contains` (src/node.rs:67-79): node-level. -/
def recursive_contains (value : α) : α → HeapNode α → HeapNode α → Bool
  | x, l, r =>
    if value < x then
      match l with
      | .nil => false
      | .node lx ll lr => recursive_contains value lx ll lr
    else if x < value then
      match r with
      | .nil => false
      | .node rx rl rr => recursive_contains value rx rl rr
    else true
termination_by x l r => tsize l + tsize r
decreasing_by
  · simp [tsize]; omega
  · simp [tsize]; omega

/-- `Node::iterative_retrieve` (src/node.rs:81-91): same descent returning
the stored value (a reference in Rust) instead of a boolean. -/
def iterative_retrieve (value : α) : HeapNode α → Option α
  | .nil => none
  | .node x l r =>
    if value < x then iterative_retrieve value l
    else if x < value then iterative_retrieve value r
    else some x

/-- `Node::recursive_retrieve` (src/node.rs:93-105): node-level. -/
def recursive_retrieve (value : α) : α → HeapNode α → HeapNode α → Option α
  | x, l, r =>
    if value < x then
      match l with
      | .nil => none
      | .node lx ll lr => recursive_retrieve value lx ll lr
    else if x < value then
      match r with
      | .nil => none
      | .node rx rl rr => recursive_retrieve value rx rl rr
    else some x
termination_by x l r => tsize l + tsize r
decreasing_by
  · simp [tsize]; omega
  · simp [tsize]; omega

/-- `Node::iterative_min` (src/node.rs:218-227): leftmost descent. -/
def iterative_min : HeapNode α → Option α
  | .nil => none
  | .node x .nil _ => some x
  | .node _ (.node lx ll lr) _ => iterative_min (.node lx ll lr)

/-- `Node::recursive_min` (src/node.rs:229-234): node-level leftmost
descent; always finds a value. -/
def recursive_min : α → HeapNode α → HeapNode α → α
  | x, .nil, _ => x
  | _, .node lx ll lr, _ => recursive_min lx ll lr
termination_by x l _ => tsize l
decreasing_by
  simp [tsize] <;> omega

/-- `Node::iterative_max` (src/node.rs:236-245): rightmost descent. -/
def iterative_max : HeapNode α → Option α
  | .nil => none
  | .node x _ .nil => some x
  | .node _ _ (.node rx rl rr) => iterative_max (.node rx rl rr)

/-- `Node::recursive_max` (src/node.rs:247-252): node-level rightmost
descent; always finds a value. -/
def recursive_max : α → HeapNode α → HeapNode α → α
  | x, _, .nil => x
  | _, _, .node rx rl rr => recursive_max rx rl rr
termination_by x _ r => tsize r
decreasing_by
  simp [tsize] <;> omega

/-- The leftmost-descent loop of `Node::iterative_remove_min`
(src/node.rs:254-266) after the `is_some` guard: `x`, `l`, `r` are the
fields of the current node. Detaches the leftmost node, re-linking its
right child, and returns the extracted value with the updated subtree. -/
def iterative_remove_min_from : α → HeapNode α → HeapNode α → α × HeapNode α
  | x, .nil, r => (x, r)
  | x, .node lx ll lr, r =>
    let p := iterative_remove_min_from lx ll lr
    (p.1, .node x p.2 r)
termination_by x l _ => tsize l
decreasing_by
  simp [tsize] <;> omega

/-- `Node::iterative_remove_min` (src/node.rs:254-266): `None` on an
absent link, else extracts the minimum. -/
def iterative_remove_min : HeapNode α → Option α × HeapNode α
  | .nil => (none, .nil)
  | .node x l r =>
    let p := iterative_remove_min_from x l r
    (some p.1, p.2)

/-- `Node::recursive_remove_min` (src/node.rs:268-276): node-level (the
root is unwrapped, so it must be present); recurses into a present left
child, otherwise takes the node and re-links its right child. -/
def recursive_remove_min : α → HeapNode α → HeapNode α → α × HeapNode α
  | x, .nil, r => (x, r)
  | x, .node lx ll lr, r =>
    let p := recursive_remove_min lx ll lr
    (p.1, .node x p.2 r)
termination_by x l _ => tsize l
decreasing_by
  simp [tsize] <;> omega

/-- The rightmost-descent loop of `Node::iterative_remove_max`
(src/node.rs:278-290) after the `is_some` guard. -/
def iterative_remove_max_from : α → HeapNode α → HeapNode α → α × HeapNode α
  | x, l, .nil => (x, l)
  | x, l, .node rx rl rr =>
    let p := iterative_remove_max_from rx rl rr
    (p.1, .node x l p.2)
termination_by x _ r => tsize r
decreasing_by
  simp [tsize] <;> omega

/-- `Node::iterative_remove_max` (src/node.rs:278-290). -/
def iterative_remove_max : HeapNode α → Option α × HeapNode α
  | .nil => (none, .nil)
  | .node x l r =>
    let p := iterative_remove_max_from x l r
    (some p.1, p.2)

/-- `Node::recursive_remove_max` (src/node.rs:292-300): node-level. -/
def recursive_remove_max : α → HeapNode α → HeapNode α → α × HeapNode α
  | x, l, .nil => (x, l)
  | x, l, .node rx rl rr =>
    let p := recursive_remove_max rx rl rr
    (p.1, .node x l p.2)
termination_by x _ r => tsize r
decreasing_by
  simp [tsize] <;> omega

/-- `Node::iterative_remove` (src/node.rs:171-193): descend to the value;
at the found node detach (no children), splice the sole child (one
child), or overwrite the value with the minimum extracted from the right
subtree (two children; the `unwrap` on src/node.rs:183 succeeds because
the right child is present). Returns the updated link and the success
flag (`Ok`/`Err`). -/
def iterative_remove (value : α) : HeapNode α → HeapNode α × Bool
  | .nil => (.nil, false)
  | .node x l r =>
    if value < x then
      let p := iterative_remove value l
      (.node x p.1 r, p.2)
    else if x < value then
      let p := iterative_remove value r
      (.node x l p.1, p.2)
    else
      match l, r with
      | .nil, .nil => (.nil, true)
      | .node la lb lc, .nil => (.node la lb lc, true)
      | .nil, .node ra rb rc => (.node ra rb rc, true)
      | .node la lb lc, .node ra rb rc =>
        let p := iterative_remove_min_from ra rb rc
        (.node p.1 (.node la lb lc) p.2, true)

/-- `Node::recursive_remove` (src/node.rs:195-216): same case analysis,
recursive descent, using `recursive_remove_min` for the two-children
case (the `unwrap` on src/node.rs:206 succeeds because the right child
is present). -/
def recursive_remove (value : α) : HeapNode α → HeapNode α × Bool
  | .nil => (.nil, false)
  | .node x l r =>
    if value < x then
      let p := recursive_remove value l
      (.node x p.1 r, p.2)
    else if x < value then
      let p := recursive_remove value r
      (.node x l p.1, p.2)
    else
      match l, r with
      | .nil, .nil => (.nil, true)
      | .node la lb lc, .nil => (.node la lb lc, true)
      | .nil, .node ra rb rc => (.node ra rb rc, true)
      | .node la lb lc, .node ra rb rc =>
        let p := recursive_remove_min ra rb rc
        (.node p.1 (.node la lb lc) p.2, true)

end BstRs

namespace BstRs

open HeapNode

variable {α : Type}

/-- `stack.push(child)` guarded by `child.is_some()` (src/node.rs:308-313,
359-364, 435-440, 489-494): present links go on the stack, absent ones
are skipped. -/
def pushIfSome (t : HeapNode α) (s : List (HeapNode α)) : List (HeapNode α) :=
  match t with
  | .nil => s
  | t => t :: s

/-- Number of nodes with a present left child (termination helper for
the link-stealing consuming in-order loop). -/
def lcount : HeapNode α → Nat
  | .nil => 0
  | .node _ l r => (match l with | .nil => 0 | .node _ _ _ => 1) + lcount l + lcount r

/-- Weight of a work stack: each entry costs `2 * tsize + 2 * lcount + 1`
(termination measure for the traversal loops). -/
def wsize : List (HeapNode α) → Nat
  | [] => 0
  | t :: s => (2 * tsize t + 2 * lcount t + 1) + wsize s

theorem wsize_append (a b : List (HeapNode α)) : wsize (a ++ b) = wsize a + wsize b := by
  induction a with
  | nil => simp [wsize]
  | cons t a ih => simp [wsize, ih]; omega

theorem wsize_pushIfSome (t : HeapNode α) (s : List (HeapNode α)) :
    wsize (pushIfSome t s) ≤ 2 * tsize t + 2 * lcount t + 1 + wsize s := by
  cases t <;> simp [pushIfSome, wsize, tsize, lcount] <;> omega

/-- The loop of `Node::iterative_pre_order_vec` (src/node.rs:302-317):
pop a link; a popped absent link (or an empty stack) ends the loop; a
present node's value is emitted and its right then left present children
are pushed, so the left child is processed first. -/
def iterPreLoop : List (HeapNode α) → List α → List α
  | [], acc => acc
  | .nil :: _, acc => acc
  | .node x l r :: stack, acc =>
    iterPreLoop (pushIfSome l (pushIfSome r stack)) (acc ++ [x])
termination_by stack _ => wsize stack
decreasing_by
  calc wsize (pushIfSome l (pushIfSome r stack))
      ≤ 2 * tsize l + 2 * lcount l + 1 + wsize (pushIfSome r stack) :=
        wsize_pushIfSome _ _
    _ ≤ 2 * tsize l + 2 * lcount l + 1 + (2 * tsize r + 2 * lcount r + 1 + wsize stack) := by
        have := wsize_pushIfSome r stack
        omega
    _ < wsize (HeapNode.node x l r :: stack) := by
        simp [wsize, tsize, lcount]
        cases l <;> simp [lcount] <;> omega

/-- `Node::iterative_pre_order_vec` (src/node.rs:302-317). -/
def iterative_pre_order_vec (node : HeapNode α) : List α :=
  iterPreLoop [node] []

/-- `Node::recursive_pre_order_vec` (src/node.rs:319-325): pushes the
value, then recurses into the left and right links, threading the
`elements` accumulator. -/
def recursive_pre_order_vec : HeapNode α → List α → List α
  | .nil, elements => elements
  | .node x l r, elements =>
    recursive_pre_order_vec r (recursive_pre_order_vec l (elements ++ [x]))

/-- The loop of `Node::iterative_in_order_vec` (src/node.rs:327-343):
descend left pushing each visited node (its value and right link are
what the later pop reads), then on an absent cursor pop a node, emit its
value and continue with its right link. -/
def iterInLoop : HeapNode α → List (α × HeapNode α) → List α → List α
  | .node x l r, stack, acc => iterInLoop l ((x, r) :: stack) acc
  | .nil, (x, r) :: stack, acc => iterInLoop r stack (acc ++ [x])
  | .nil, [], acc => acc
termination_by root stack _ =>
  2 * tsize root + (stack.map (fun p => 2 * tsize p.2 + 1)).sum
decreasing_by
  · simp [tsize]; omega
  · simp; omega

/-- `Node::iterative_in_order_vec` (src/node.rs:327-343). -/
def iterative_in_order_vec (root : HeapNode α) : List α :=
  iterInLoop root [] []

/-- `Node::recursive_in_order_vec` (src/node.rs:345-351). -/
def recursive_in_order_vec : HeapNode α → List α → List α
  | .nil, elements => elements
  | .node x l r, elements =>
    recursive_in_order_vec r (recursive_in_order_vec l elements ++ [x])

/-- The first loop of `Node::iterative_post_order_vec`
(src/node.rs:353-373): pop a link (an absent link or empty stack ends
the loop), push its present left then right children, and prepend the
value to the second stack; the final drain of the second stack reverses
it, so the accumulator here is already the final element order. -/
def iterPostLoop : List (HeapNode α) → List α → List α
  | [], acc => acc
  | .nil :: _, acc => acc
  | .node x l r :: stack, acc =>
    iterPostLoop (pushIfSome r (pushIfSome l stack)) (x :: acc)
termination_by stack _ => wsize stack
decreasing_by
  calc wsize (pushIfSome r (pushIfSome l stack))
      ≤ 2 * tsize r + 2 * lcount r + 1 + wsize (pushIfSome l stack) :=
        wsize_pushIfSome _ _
    _ ≤ 2 * tsize r + 2 * lcount r + 1 + (2 * tsize l + 2 * lcount l + 1 + wsize stack) := by
        have := wsize_pushIfSome l stack
        omega
    _ < wsize (HeapNode.node x l r :: stack) := by
        simp [wsize, tsize, lcount]
        cases l <;> simp [lcount] <;> omega

/-- `Node::iterative_post_order_vec` (src/node.rs:353-373). -/
def iterative_post_order_vec (root : HeapNode α) : List α :=
  iterPostLoop [root] []

/-- `Node::recursive_post_order_vec` (src/node.rs:375-381). -/
def recursive_post_order_vec : HeapNode α → List α → List α
  | .nil, elements => elements
  | .node x l r, elements =>
    recursive_post_order_vec r (recursive_post_order_vec l elements) ++ [x]

/-- The loop of `Node::iterative_level_order_vec` (src/node.rs:383-399):
pop the queue's front (an absent link or empty queue ends the loop),
emit the value, enqueue present left then right children at the back. -/
def iterLevelLoop : List (HeapNode α) → List α → List α
  | [], acc => acc
  | .nil :: _, acc => acc
  | .node x l r :: queue, acc =>
    iterLevelLoop (queue ++ bfsChildren (.node x l r)) (acc ++ [x])
termination_by queue _ => wsize queue
decreasing_by
  rw [wsize_append]
  have : wsize (bfsChildren (HeapNode.node x l r)) ≤
      2 * tsize l + 2 * lcount l + 2 * tsize r + 2 * lcount r + 2 := by
    simp only [bfsChildren]
    cases l <;> cases r <;> simp [wsize, tsize, lcount] <;> omega
  simp [wsize, tsize, lcount]
  cases l <;> simp [lcount] at this ⊢ <;> omega

/-- `Node::iterative_level_order_vec` (src/node.rs:383-399). -/
def iterative_level_order_vec (root : HeapNode α) : List α :=
  iterLevelLoop [root] []

/-- `Node::recursive_current_level` (src/node.rs:408-427): appends the
values of one 1-based level, left to right. -/
def recursive_current_level : HeapNode α → List α → Int → List α
  | .nil, elements, _ => elements
  | .node x l r, elements, level =>
    if level < 1 then elements
    else if level = 1 then elements ++ [x]
    else recursive_current_level r (recursive_current_level l elements (level - 1)) (level - 1)

/-- `Node::recursive_level_order_vec` (src/node.rs:401-406): appends
levels `1 ..= height + 1` in turn. -/
def recursive_level_order_vec (root : HeapNode α) (elements : List α) : List α :=
  (List.range (recursive_height root + 1).toNat).foldl
    (fun (e : List α) (k : Nat) => recursive_current_level root e ((k : Int) + 1)) elements

/-- The loop of `Node::iterative_consume_pre_order_vec`
(src/node.rs:429-444): identical control flow to the borrowing pre-order
loop, over owned links. -/
def iterConsumePreLoop : List (HeapNode α) → List α → List α
  | [], acc => acc
  | .nil :: _, acc => acc
  | .node x l r :: stack, acc =>
    iterConsumePreLoop (pushIfSome l (pushIfSome r stack)) (acc ++ [x])
termination_by stack _ => wsize stack
decreasing_by
  calc wsize (pushIfSome l (pushIfSome r stack))
      ≤ 2 * tsize l + 2 * lcount l + 1 + wsize (pushIfSome r stack) :=
        wsize_pushIfSome _ _
    _ ≤ 2 * tsize l + 2 * lcount l + 1 + (2 * tsize r + 2 * lcount r + 1 + wsize stack) := by
        have := wsize_pushIfSome r stack
        omega
    _ < wsize (HeapNode.node x l r :: stack) := by
        simp [wsize, tsize, lcount]
        cases l <;> simp [lcount] <;> omega

/-- `Node::iterative_consume_pre_order_vec` (src/node.rs:429-444). -/
def iterative_consume_pre_order_vec (node : HeapNode α) : List α :=
  iterConsumePreLoop [node] []

/-- `Node::recursive_consume_pre_order_vec` (src/node.rs:446-452). -/
def recursive_consume_pre_order_vec : HeapNode α → List α → List α
  | .nil, elements => elements
  | .node x l r, elements =>
    recursive_consume_pre_order_vec r (recursive_consume_pre_order_vec l (elements ++ [x]))

/-- The link-stealing loop of `Node::iterative_consume_in_order_vec`
(src/node.rs:454-473): pop a link (an absent link is skipped); a node
with a present left child has that child taken and both pushed back
(child on top); otherwise its value is emitted and its taken right link
pushed unconditionally. -/
def iterConsumeInLoop : List (HeapNode α) → List α → List α
  | [], acc => acc
  | .nil :: stack, acc => iterConsumeInLoop stack acc
  | .node x .nil r :: stack, acc => iterConsumeInLoop (r :: stack) (acc ++ [x])
  | .node x (.node a b c) r :: stack, acc =>
    iterConsumeInLoop (.node a b c :: .node x .nil r :: stack) acc
termination_by stack _ => wsize stack
decreasing_by
  all_goals simp [wsize, tsize, lcount] <;> omega

/-- `Node::iterative_consume_in_order_vec` (src/node.rs:454-473). -/
def iterative_consume_in_order_vec (root : HeapNode α) : List α :=
  iterConsumeInLoop [root] []

/-- `Node::recursive_consume_in_order_vec` (src/node.rs:475-481). -/
def recursive_consume_in_order_vec : HeapNode α → List α → List α
  | .nil, elements => elements
  | .node x l r, elements =>
    recursive_consume_in_order_vec r (recursive_consume_in_order_vec l elements ++ [x])

/-- The first loop of `Node::iterative_consume_post_order_vec`
(src/node.rs:483-503): identical control flow to the borrowing
post-order loop, over owned links. -/
def iterConsumePostLoop : List (HeapNode α) → List α → List α
  | [], acc => acc
  | .nil :: _, acc => acc
  | .node x l r :: stack, acc =>
    iterConsumePostLoop (pushIfSome r (pushIfSome l stack)) (x :: acc)
termination_by stack _ => wsize stack
decreasing_by
  calc wsize (pushIfSome r (pushIfSome l stack))
      ≤ 2 * tsize r + 2 * lcount r + 1 + wsize (pushIfSome l stack) :=
        wsize_pushIfSome _ _
    _ ≤ 2 * tsize r + 2 * lcount r + 1 + (2 * tsize l + 2 * lcount l + 1 + wsize stack) := by
        have := wsize_pushIfSome l stack
        omega
    _ < wsize (HeapNode.node x l r :: stack) := by
        simp [wsize, tsize, lcount]
        cases l <;> simp [lcount] <;> omega

/-- `Node::iterative_consume_post_order_vec` (src/node.rs:483-503). -/
def iterative_consume_post_order_vec (root : HeapNode α) : List α :=
  iterConsumePostLoop [root] []

/-- `Node::recursive_consume_post_order_vec` (src/node.rs:505-511). -/
def recursive_consume_post_order_vec : HeapNode α → List α → List α
  | .nil, elements => elements
  | .node x l r, elements =>
    recursive_consume_post_order_vec r (recursive_consume_post_order_vec l elements) ++ [x]

/-- The loop of `Node::iterative_consume_level_order_vec`
(src/node.rs:513-529): identical control flow to the borrowing
level-order loop, over owned links. -/
def iterConsumeLevelLoop : List (HeapNode α) → List α → List α
  | [], acc => acc
  | .nil :: _, acc => acc
  | .node x l r :: queue, acc =>
    iterConsumeLevelLoop (queue ++ bfsChildren (.node x l r)) (acc ++ [x])
termination_by queue _ => wsize queue
decreasing_by
  rw [wsize_append]
  have : wsize (bfsChildren (HeapNode.node x l r)) ≤
      2 * tsize l + 2 * lcount l + 2 * tsize r + 2 * lcount r + 2 := by
    simp only [bfsChildren]
    cases l <;> cases r <;> simp [wsize, tsize, lcount] <;> omega
  simp [wsize, tsize, lcount]
  cases l <;> simp [lcount] at this ⊢ <;> omega

/-- `Node::iterative_consume_level_order_vec` (src/node.rs:513-529). -/
def iterative_consume_level_order_vec (root : HeapNode α) : List α :=
  iterConsumeLevelLoop [root] []

/-- `Node::write_level_into_vec` (src/node.rs:546-557): appends the
values of one 0-based level, left to right (the `ptr::read` value move
is just a read of the value here). -/
def write_level_into_vec : HeapNode α → List α → Int → List α
  | .nil, elements, _ => elements
  | .node x l r, elements, level =>
    if level = 0 then elements ++ [x]
    else write_level_into_vec r (write_level_into_vec l elements (level - 1)) (level - 1)

/-- `Node::recursive_consume_level_order_vec` (src/node.rs:531-539):
appends levels `0 .. height + 1` in turn (`dealloc_boxes` only frees
memory and is not modelled). -/
def recursive_consume_level_order_vec (root : HeapNode α) (elements : List α) : List α :=
  (List.range (recursive_height root + 1).toNat).foldl
    (fun (e : List α) (k : Nat) => write_level_into_vec root e (k : Int)) elements

/-- `IterativeBST<T>` (src/lib.rs:380-391): a root link and an element
count. -/
structure IterativeBST (α : Type) where
  root : HeapNode α
  size : Nat
deriving Repr, DecidableEq

/-- `RecursiveBST<T>` (src/lib.rs:1221-1227 region): a root link and an
element count. -/
structure RecursiveBST (α : Type) where
  root : HeapNode α
  size : Nat
deriving Repr, DecidableEq

namespace IterativeBST

variable {α : Type}

/-- `IterativeBST::new` (src/lib.rs:399-404). -/
def new : IterativeBST α :=
  { root := .nil, size := 0 }

/-- `BinarySearchTree::is_empty` for `IterativeBST` (src/lib.rs:503):
`self.size == 0`. -/
def is_empty (b : IterativeBST α) : Bool :=
  b.size == 0

/-- `BinarySearchTree::is_not_empty` for `IterativeBST`
(src/lib.rs:521): `self.size != 0`. -/
def is_not_empty (b : IterativeBST α) : Bool :=
  b.size != 0

variable [LinearOrder α]

/-- `IterativeBST::insert` (src/lib.rs:545-549): forwards to
`Node::iterative_insert` and increments `size` iff it returned `Ok`. -/
def insert (b : IterativeBST α) (value : α) : IterativeBST α :=
  let p := iterative_insert value b.root
  { root := p.1, size := if p.2 then b.size + 1 else b.size }

/-- `IterativeBST::contains` (src/lib.rs:566-568). -/
def contains (b : IterativeBST α) (value : α) : Bool :=
  iterative_contains value b.root

/-- `IterativeBST::remove` (src/lib.rs:589-593): forwards to
`Node::iterative_remove` and decrements `size` iff it returned `Ok`. -/
def remove (b : IterativeBST α) (value : α) : IterativeBST α :=
  let p := iterative_remove value b.root
  { root := p.1, size := if p.2 then b.size - 1 else b.size }

/-- `IterativeBST::retrieve` (src/lib.rs:610-612). -/
def retrieve (b : IterativeBST α) (value : α) : Option α :=
  iterative_retrieve value b.root

/-- `IterativeBST::height` (src/lib.rs:668-672): `None` on an absent
root, otherwise `Node::iterative_height` of the root (which, on a
present root, never panics; the inner `Option` from the panic model is
flattened by taking the computed height). -/
def height (b : IterativeBST α) : Option Int :=
  match b.root with
  | .nil => none
  | .node _ _ _ => iterative_height b.root

/-- `IterativeBST::min` (src/lib.rs:690-692). -/
def min (b : IterativeBST α) : Option α :=
  iterative_min b.root

/-- `IterativeBST::max` (src/lib.rs:710-712). -/
def max (b : IterativeBST α) : Option α :=
  iterative_max b.root

/-- `IterativeBST::remove_min` (src/lib.rs:732-738): extracts via
`Node::iterative_remove_min` and decrements `size` iff a value came
back. -/
def remove_min (b : IterativeBST α) : Option α × IterativeBST α :=
  let p := iterative_remove_min b.root
  (p.1, { root := p.2, size := if p.1.isSome then b.size - 1 else b.size })

/-- `IterativeBST::remove_max` (src/lib.rs:758-764). -/
def remove_max (b : IterativeBST α) : Option α × IterativeBST α :=
  let p := iterative_remove_max b.root
  (p.1, { root := p.2, size := if p.1.isSome then b.size - 1 else b.size })

/-- `IterativeBST::pre_order_vec` (src/lib.rs:818-820). -/
def pre_order_vec (b : IterativeBST α) : List α :=
  iterative_pre_order_vec b.root

/-- `IterativeBST::in_order_vec` (src/lib.rs:852-854). -/
def in_order_vec (b : IterativeBST α) : List α :=
  iterative_in_order_vec b.root

/-- `IterativeBST::asc_order_vec` (src/lib.rs:789-791): alias of
`in_order_vec`. -/
def asc_order_vec (b : IterativeBST α) : List α :=
  b.in_order_vec

/-- `IterativeBST::post_order_vec` (src/lib.rs:881-883). -/
def post_order_vec (b : IterativeBST α) : List α :=
  iterative_post_order_vec b.root

/-- `IterativeBST::level_order_vec` (src/lib.rs:910-912). -/
def level_order_vec (b : IterativeBST α) : List α :=
  iterative_level_order_vec b.root

/-- The sequence yielded by `IterativeBST::into_pre_order_iter`
(src/lib.rs:1118-1120). -/
def into_pre_order_list (b : IterativeBST α) : List α :=
  iterative_consume_pre_order_vec b.root

/-- The sequence yielded by `IterativeBST::into_in_order_iter`
(src/lib.rs:1152-1154). -/
def into_in_order_list (b : IterativeBST α) : List α :=
  iterative_consume_in_order_vec b.root

/-- The sequence yielded by `IterativeBST::into_post_order_iter`
(src/lib.rs:1181-1183). -/
def into_post_order_list (b : IterativeBST α) : List α :=
  iterative_consume_post_order_vec b.root

/-- The sequence yielded by `IterativeBST::into_level_order_iter`
(src/lib.rs:1210-1212). -/
def into_level_order_list (b : IterativeBST α) : List α :=
  iterative_consume_level_order_vec b.root

/-- `impl From<Vec<T>> for IterativeBST<T>` (src/lib.rs:436-444): insert
each value in sequence order into a fresh tree. -/
def fromVec (values : List α) : IterativeBST α :=
  values.foldl (fun b v => b.insert v) new

end IterativeBST

namespace RecursiveBST

variable {α : Type}

/-- `RecursiveBST::new` (src/lib.rs:1229-1234 region). -/
def new : RecursiveBST α :=
  { root := .nil, size := 0 }

/-- `BinarySearchTree::is_empty` for `RecursiveBST` (src/lib.rs:1333). -/
def is_empty (b : RecursiveBST α) : Bool :=
  b.size == 0

/-- `BinarySearchTree::is_not_empty` for `RecursiveBST`
(src/lib.rs:1351). -/
def is_not_empty (b : RecursiveBST α) : Bool :=
  b.size != 0

variable [LinearOrder α]

/-- `RecursiveBST::insert` (src/lib.rs:1375-1387): an absent root gets a
fresh node directly; otherwise `Node::recursive_insert` runs on the root
node, and `size` increments iff it returned `Ok`. -/
def insert (b : RecursiveBST α) (value : α) : RecursiveBST α :=
  match b.root with
  | .nil => { root := .node value .nil .nil, size := b.size + 1 }
  | .node x l r =>
    let p := recursive_insert value x l r
    { root := p.1, size := if p.2 then b.size + 1 else b.size }

/-- `RecursiveBST::contains` (src/lib.rs:1404-1409). -/
def contains (b : RecursiveBST α) (value : α) : Bool :=
  match b.root with
  | .nil => false
  | .node x l r => recursive_contains value x l r

/-- `RecursiveBST::remove` (src/lib.rs:1430-1434). -/
def remove (b : RecursiveBST α) (value : α) : RecursiveBST α :=
  let p := recursive_remove value b.root
  { root := p.1, size := if p.2 then b.size - 1 else b.size }

/-- `RecursiveBST::retrieve` (src/lib.rs:1451-1456). -/
def retrieve (b : RecursiveBST α) (value : α) : Option α :=
  match b.root with
  | .nil => none
  | .node x l r => recursive_retrieve value x l r

/-- `RecursiveBST::height` (src/lib.rs:1515-1519): `None` on an absent
root, otherwise `Some` of `Node::recursive_height`. -/
def height (b : RecursiveBST α) : Option Int :=
  match b.root with
  | .nil => none
  | .node _ _ _ => some (recursive_height b.root)

/-- `RecursiveBST::min` (src/lib.rs:1537-1542). -/
def min (b : RecursiveBST α) : Option α :=
  match b.root with
  | .nil => none
  | .node x l r => some (recursive_min x l r)

/-- `RecursiveBST::max` (src/lib.rs:1560-1565). -/
def max (b : RecursiveBST α) : Option α :=
  match b.root with
  | .nil => none
  | .node x l r => some (recursive_max x l r)

/-- `RecursiveBST::remove_min` (src/lib.rs:1585-1596): `None` and no
change on an absent root; otherwise `Node::recursive_remove_min` on the
root node, decrementing `size`. -/
def remove_min (b : RecursiveBST α) : Option α × RecursiveBST α :=
  match b.root with
  | .nil => (none, b)
  | .node x l r =>
    let p := recursive_remove_min x l r
    (some p.1, { root := p.2, size := b.size - 1 })

/-- `RecursiveBST::remove_max` (src/lib.rs:1616-1627). -/
def remove_max (b : RecursiveBST α) : Option α × RecursiveBST α :=
  match b.root with
  | .nil => (none, b)
  | .node x l r =>
    let p := recursive_remove_max x l r
    (some p.1, { root := p.2, size := b.size - 1 })

/-- `RecursiveBST::pre_order_vec` (src/lib.rs:1683-1687). -/
def pre_order_vec (b : RecursiveBST α) : List α :=
  recursive_pre_order_vec b.root []

/-- `RecursiveBST::in_order_vec` (src/lib.rs:1719-1723). -/
def in_order_vec (b : RecursiveBST α) : List α :=
  recursive_in_order_vec b.root []

/-- `RecursiveBST::asc_order_vec` (src/lib.rs:1652-1656). -/
def asc_order_vec (b : RecursiveBST α) : List α :=
  recursive_in_order_vec b.root []

/-- `RecursiveBST::post_order_vec` (src/lib.rs:1750-1754). -/
def post_order_vec (b : RecursiveBST α) : List α :=
  recursive_post_order_vec b.root []

/-- `RecursiveBST::level_order_vec` (src/lib.rs:1781-1785). -/
def level_order_vec (b : RecursiveBST α) : List α :=
  recursive_level_order_vec b.root []

/-- The sequence yielded by `RecursiveBST::into_pre_order_iter`
(src/lib.rs:2001-2005). -/
def into_pre_order_list (b : RecursiveBST α) : List α :=
  recursive_consume_pre_order_vec b.root []

/-- The sequence yielded by `RecursiveBST::into_in_order_iter`
(src/lib.rs:2037-2041). -/
def into_in_order_list (b : RecursiveBST α) : List α :=
  recursive_consume_in_order_vec b.root []

/-- The sequence yielded by `RecursiveBST::into_post_order_iter`
(src/lib.rs:2068-2072). -/
def into_post_order_list (b : RecursiveBST α) : List α :=
  recursive_consume_post_order_vec b.root []

/-- The sequence yielded by `RecursiveBST::into_level_order_iter`
(src/lib.rs:2099-2103). -/
def into_level_order_list (b : RecursiveBST α) : List α :=
  recursive_consume_level_order_vec b.root []

/-- `impl From<Vec<T>> for RecursiveBST<T>` (src/lib.rs:1267-1275). -/
def fromVec (values : List α) : RecursiveBST α :=
  values.foldl (fun b v => b.insert v) new

end RecursiveBST

/-- A public mutating operation of the container API (used to quantify
over every sequence of operations). -/
inductive Op (α : Type) where
  | ins (value : α)
  | del (value : α)
  | delMin
  | delMax
deriving Repr, DecidableEq

variable [LinearOrder α]

/-- Apply one operation to an `IterativeBST`. -/
def IterativeBST.applyOp (b : IterativeBST α) : Op α → IterativeBST α
  | .ins v => b.insert v
  | .del v => b.remove v
  | .delMin => b.remove_min.2
  | .delMax => b.remove_max.2

/-- Apply a sequence of operations to an `IterativeBST`, first first. -/
def IterativeBST.applyOps (b : IterativeBST α) (ops : List (Op α)) : IterativeBST α :=
  ops.foldl IterativeBST.applyOp b

/-- Apply one operation to a `RecursiveBST`. -/
def RecursiveBST.applyOp (b : RecursiveBST α) : Op α → RecursiveBST α
  | .ins v => b.insert v
  | .del v => b.remove v
  | .delMin => b.remove_min.2
  | .delMax => b.remove_max.2

/-- Apply a sequence of operations to a `RecursiveBST`, first first. -/
def RecursiveBST.applyOps (b : RecursiveBST α) (ops : List (Op α)) : RecursiveBST α :=
  ops.foldl RecursiveBST.applyOp b

end BstRs

namespace BstRs

open HeapNode

section TraversalLemmas

variable {α : Type}

theorem recursive_pre_order_vec_eq (t : HeapNode α) :
    ∀ e, recursive_pre_order_vec t e = e ++ preOrder t := by
  induction t with
  | nil => intro e; simp [recursive_pre_order_vec, preOrder]
  | node x l r ihl ihr =>
    intro e
    simp [recursive_pre_order_vec, preOrder, ihl, ihr]

theorem recursive_in_order_vec_eq (t : HeapNode α) :
    ∀ e, recursive_in_order_vec t e = e ++ inOrder t := by
  induction t with
  | nil => intro e; simp [recursive_in_order_vec, inOrder]
  | node x l r ihl ihr =>
    intro e
    simp [recursive_in_order_vec, inOrder, ihl, ihr]

theorem recursive_post_order_vec_eq (t : HeapNode α) :
    ∀ e, recursive_post_order_vec t e = e ++ postOrder t := by
  induction t with
  | nil => intro e; simp [recursive_post_order_vec, postOrder]
  | node x l r ihl ihr =>
    intro e
    simp [recursive_post_order_vec, postOrder, ihl, ihr]

theorem recursive_consume_pre_order_vec_eq (t : HeapNode α) :
    ∀ e, recursive_consume_pre_order_vec t e = e ++ preOrder t := by
  induction t with
  | nil => intro e; simp [recursive_consume_pre_order_vec, preOrder]
  | node x l r ihl ihr =>
    intro e
    simp [recursive_consume_pre_order_vec, preOrder, ihl, ihr]

theorem recursive_consume_in_order_vec_eq (t : HeapNode α) :
    ∀ e, recursive_consume_in_order_vec t e = e ++ inOrder t := by
  induction t with
  | nil => intro e; simp [recursive_consume_in_order_vec, inOrder]
  | node x l r ihl ihr =>
    intro e
    simp [recursive_consume_in_order_vec, inOrder, ihl, ihr]

theorem recursive_consume_post_order_vec_eq (t : HeapNode α) :
    ∀ e, recursive_consume_post_order_vec t e = e ++ postOrder t := by
  induction t with
  | nil => intro e; simp [recursive_consume_post_order_vec, postOrder]
  | node x l r ihl ihr =>
    intro e
    simp [recursive_consume_post_order_vec, postOrder, ihl, ihr]

theorem allNodes_pushIfSome (t : HeapNode α) (s : List (HeapNode α)) :
    allNodes (pushIfSome t s) = allNodes s := by
  cases t <;> simp [pushIfSome, allNodes]

theorem flatten_map_pushIfSome (f : HeapNode α → List α) (hf : f .nil = [])
    (t : HeapNode α) (s : List (HeapNode α)) :
    ((pushIfSome t s).map f).flatten = f t ++ (s.map f).flatten := by
  cases t <;> simp [pushIfSome, hf]

theorem iterPreLoop_eq : ∀ (stack : List (HeapNode α)) (acc : List α),
    allNodes stack = true →
    iterPreLoop stack acc = acc ++ (stack.map preOrder).flatten := by
  intro stack acc
  induction stack, acc using iterPreLoop.induct with
  | case1 acc => intro _; simp [iterPreLoop]
  | case2 stack acc => intro h; simp [allNodes] at h
  | case3 x l r stack acc ih =>
    intro h
    simp only [allNodes] at h
    rw [iterPreLoop, ih (by rw [allNodes_pushIfSome, allNodes_pushIfSome]; exact h)]
    rw [flatten_map_pushIfSome preOrder rfl, flatten_map_pushIfSome preOrder rfl]
    simp [preOrder]

theorem iterative_pre_order_vec_eq (t : HeapNode α) :
    iterative_pre_order_vec t = preOrder t := by
  cases t with
  | nil => simp [iterative_pre_order_vec, iterPreLoop, preOrder]
  | node x l r =>
    rw [iterative_pre_order_vec, iterPreLoop_eq [.node x l r] [] (by simp [allNodes])]
    simp

theorem iterConsumePreLoop_eq : ∀ (stack : List (HeapNode α)) (acc : List α),
    allNodes stack = true →
    iterConsumePreLoop stack acc = acc ++ (stack.map preOrder).flatten := by
  intro stack acc
  induction stack, acc using iterConsumePreLoop.induct with
  | case1 acc => intro _; simp [iterConsumePreLoop]
  | case2 stack acc => intro h; simp [allNodes] at h
  | case3 x l r stack acc ih =>
    intro h
    simp only [allNodes] at h
    rw [iterConsumePreLoop, ih (by rw [allNodes_pushIfSome, allNodes_pushIfSome]; exact h)]
    rw [flatten_map_pushIfSome preOrder rfl, flatten_map_pushIfSome preOrder rfl]
    simp [preOrder]

theorem iterative_consume_pre_order_vec_eq (t : HeapNode α) :
    iterative_consume_pre_order_vec t = preOrder t := by
  cases t with
  | nil => simp [iterative_consume_pre_order_vec, iterConsumePreLoop, preOrder]
  | node x l r =>
    rw [iterative_consume_pre_order_vec,
      iterConsumePreLoop_eq [.node x l r] [] (by simp [allNodes])]
    simp

theorem iterInLoop_eq : ∀ (root : HeapNode α) (stack : List (α × HeapNode α)) (acc : List α),
    iterInLoop root stack acc
      = acc ++ inOrder root ++ (stack.map (fun p => p.1 :: inOrder p.2)).flatten := by
  intro root stack acc
  induction root, stack, acc using iterInLoop.induct with
  | case1 x l r stack acc ih =>
    rw [iterInLoop, ih]
    simp [inOrder]
  | case2 x r stack acc ih =>
    rw [iterInLoop, ih]
    simp [inOrder]
  | case3 acc =>
    simp [iterInLoop, inOrder]

theorem iterative_in_order_vec_eq (t : HeapNode α) :
    iterative_in_order_vec t = inOrder t := by
  rw [iterative_in_order_vec, iterInLoop_eq]
  simp

theorem iterConsumeInLoop_cons : ∀ (n : Nat) (t : HeapNode α), tsize t ≤ n →
    ∀ (stack : List (HeapNode α)) (acc : List α),
    iterConsumeInLoop (t :: stack) acc = iterConsumeInLoop stack (acc ++ inOrder t) := by
  intro n
  induction n with
  | zero =>
    intro t ht stack acc
    cases t with
    | nil => simp [iterConsumeInLoop, inOrder]
    | node x l r => simp [tsize] at ht
  | succ n ih =>
    intro t ht stack acc
    cases t with
    | nil => simp [iterConsumeInLoop, inOrder]
    | node x l r =>
      cases l with
      | nil =>
        rw [iterConsumeInLoop]
        rw [ih r (by simp [tsize] at ht ⊢; omega) stack (acc ++ [x])]
        simp [inOrder]
      | node a b c =>
        rw [iterConsumeInLoop]
        rw [ih (.node a b c) (by simp [tsize] at ht ⊢; omega)]
        rw [ih (.node x .nil r) (by simp [tsize] at ht ⊢; omega)]
        simp [inOrder]

theorem iterative_consume_in_order_vec_eq (t : HeapNode α) :
    iterative_consume_in_order_vec t = inOrder t := by
  rw [iterative_consume_in_order_vec,
    iterConsumeInLoop_cons (tsize t) t le_rfl [] []]
  simp [iterConsumeInLoop]

theorem iterPostLoop_eq : ∀ (stack : List (HeapNode α)) (acc : List α),
    allNodes stack = true →
    iterPostLoop stack acc = (stack.reverse.map postOrder).flatten ++ acc := by
  intro stack acc
  induction stack, acc using iterPostLoop.induct with
  | case1 acc => intro _; simp [iterPostLoop]
  | case2 stack acc => intro h; simp [allNodes] at h
  | case3 x l r stack acc ih =>
    intro h
    simp only [allNodes] at h
    rw [iterPostLoop, ih (by rw [allNodes_pushIfSome, allNodes_pushIfSome]; exact h)]
    have hrev : ∀ (u v : HeapNode α) (s : List (HeapNode α)),
        ((pushIfSome u (pushIfSome v s)).reverse.map postOrder).flatten
          = (s.reverse.map postOrder).flatten ++ postOrder v ++ postOrder u := by
      intro u v s
      cases u <;> cases v <;> simp [pushIfSome, postOrder]
    rw [hrev]
    simp [postOrder]

theorem iterative_post_order_vec_eq (t : HeapNode α) :
    iterative_post_order_vec t = postOrder t := by
  cases t with
  | nil => simp [iterative_post_order_vec, iterPostLoop, postOrder]
  | node x l r =>
    rw [iterative_post_order_vec, iterPostLoop_eq [.node x l r] [] (by simp [allNodes])]
    simp

theorem iterConsumePostLoop_eq : ∀ (stack : List (HeapNode α)) (acc : List α),
    allNodes stack = true →
    iterConsumePostLoop stack acc = (stack.reverse.map postOrder).flatten ++ acc := by
  intro stack acc
  induction stack, acc using iterConsumePostLoop.induct with
  | case1 acc => intro _; simp [iterConsumePostLoop]
  | case2 stack acc => intro h; simp [allNodes] at h
  | case3 x l r stack acc ih =>
    intro h
    simp only [allNodes] at h
    rw [iterConsumePostLoop, ih (by rw [allNodes_pushIfSome, allNodes_pushIfSome]; exact h)]
    have hrev : ∀ (u v : HeapNode α) (s : List (HeapNode α)),
        ((pushIfSome u (pushIfSome v s)).reverse.map postOrder).flatten
          = (s.reverse.map postOrder).flatten ++ postOrder v ++ postOrder u := by
      intro u v s
      cases u <;> cases v <;> simp [pushIfSome, postOrder]
    rw [hrev]
    simp [postOrder]

theorem iterative_consume_post_order_vec_eq (t : HeapNode α) :
    iterative_consume_post_order_vec t = postOrder t := by
  cases t with
  | nil => simp [iterative_consume_post_order_vec, iterConsumePostLoop, postOrder]
  | node x l r =>
    rw [iterative_consume_post_order_vec,
      iterConsumePostLoop_eq [.node x l r] [] (by simp [allNodes])]
    simp

end TraversalLemmas

section LevelOrderLemmas

variable {α : Type}

/-- Values at the roots of a forest (proof helper). -/
def rootsOf : List (HeapNode α) → List α
  | [] => []
  | .nil :: q => rootsOf q
  | .node x _ _ :: q => x :: rootsOf q

/-- Canonical breadth-first sequence of the traversal queue loops
(proof helper): same recursion as `iterLevelLoop` without the
accumulator. -/
def bfsList : List (HeapNode α) → List α
  | [] => []
  | .nil :: _ => []
  | .node x l r :: q => x :: bfsList (q ++ bfsChildren (.node x l r))
termination_by q => wsize q
decreasing_by
  rename_i x l r
  rw [wsize_append]
  have : wsize (bfsChildren (HeapNode.node x l r)) ≤
      2 * tsize l + 2 * lcount l + 2 * tsize r + 2 * lcount r + 2 := by
    simp only [bfsChildren]
    cases l <;> cases r <;> simp [wsize, tsize, lcount] <;> omega
  simp [wsize, tsize, lcount]
  cases l <;> simp [lcount] at this ⊢ <;> omega

theorem iterLevelLoop_eq_bfsList : ∀ (q : List (HeapNode α)) (acc : List α),
    iterLevelLoop q acc = acc ++ bfsList q := by
  intro q acc
  induction q, acc using iterLevelLoop.induct with
  | case1 acc => simp [iterLevelLoop, bfsList]
  | case2 q acc => simp [iterLevelLoop, bfsList]
  | case3 x l r q acc ih => rw [iterLevelLoop, bfsList, ih]; simp

theorem iterConsumeLevelLoop_eq_bfsList : ∀ (q : List (HeapNode α)) (acc : List α),
    iterConsumeLevelLoop q acc = acc ++ bfsList q := by
  intro q acc
  induction q, acc using iterConsumeLevelLoop.induct with
  | case1 acc => simp [iterConsumeLevelLoop, bfsList]
  | case2 q acc => simp [iterConsumeLevelLoop, bfsList]
  | case3 x l r q acc ih => rw [iterConsumeLevelLoop, bfsList, ih]; simp

theorem allNodes_append (a b : List (HeapNode α)) :
    allNodes (a ++ b) = (allNodes a && allNodes b) := by
  induction a with
  | nil => simp [allNodes]
  | cons t a ih => cases t <;> simp [allNodes, ih]

theorem allNodes_bfsChildren (t : HeapNode α) : allNodes (bfsChildren t) = true := by
  cases t with
  | nil => simp [bfsChildren, allNodes]
  | node x l r => cases l <;> cases r <;> simp [bfsChildren, allNodes]

theorem allNodes_levelChildren (q : List (HeapNode α)) :
    allNodes (levelChildren q) = true := by
  induction q with
  | nil => simp [levelChildren, allNodes]
  | cons t q ih => rw [levelChildren, allNodes_append, allNodes_bfsChildren, ih]; rfl

theorem bfsList_round : ∀ (q c : List (HeapNode α)),
    allNodes q = true → allNodes c = true →
    bfsList (q ++ c) = rootsOf q ++ bfsList (c ++ levelChildren q) := by
  intro q
  induction q with
  | nil => intro c _ _; simp [rootsOf, levelChildren]
  | cons t q ih =>
    intro c hq hc
    cases t with
    | nil => simp [allNodes] at hq
    | node x l r =>
      simp only [allNodes] at hq
      have h1 : (HeapNode.node x l r :: q) ++ c = HeapNode.node x l r :: (q ++ c) := by simp
      rw [h1, bfsList]
      have h2 : (q ++ c) ++ bfsChildren (HeapNode.node x l r)
          = q ++ (c ++ bfsChildren (HeapNode.node x l r)) := by simp
      rw [h2, ih (c ++ bfsChildren (HeapNode.node x l r)) hq
        (by rw [allNodes_append, hc, allNodes_bfsChildren]; rfl)]
      simp only [rootsOf, levelChildren]
      simp

theorem bfsList_step (q : List (HeapNode α)) (hq : allNodes q = true) :
    bfsList q = rootsOf q ++ bfsList (levelChildren q) := by
  have := bfsList_round q [] hq (by simp [allNodes])
  simpa using this

/-- Values at depth `d` of each tree of a forest, in order (helper). -/
def atDepthF (q : List (HeapNode α)) (d : Nat) : List α :=
  (q.map (fun t => atDepth t d)).flatten

theorem atDepthF_zero (q : List (HeapNode α)) (hq : allNodes q = true) :
    atDepthF q 0 = rootsOf q := by
  induction q with
  | nil => simp [atDepthF, rootsOf]
  | cons t q ih =>
    cases t with
    | nil => simp [allNodes] at hq
    | node x l r =>
      simp only [allNodes] at hq
      simp only [atDepthF, rootsOf, List.map_cons, List.flatten_cons, atDepth]
      rw [← atDepthF, ih hq]
      rfl

theorem atDepthF_succ (q : List (HeapNode α)) (d : Nat) :
    atDepthF q (d + 1) = atDepthF (levelChildren q) d := by
  induction q with
  | nil => simp [atDepthF, levelChildren]
  | cons t q ih =>
    cases t with
    | nil => simpa [atDepthF, levelChildren, bfsChildren, atDepth] using ih
    | node x l r =>
      simp only [atDepthF, List.map_cons, List.flatten_cons, atDepth, levelChildren,
        List.map_append, List.flatten_append]
      rw [← atDepthF, ← atDepthF, ih]
      have : ((bfsChildren (HeapNode.node x l r)).map (fun t => atDepth t d)).flatten
          = atDepth l d ++ atDepth r d := by
        cases l <;> cases r <;> simp [bfsChildren, atDepth]
      rw [← this]
      rfl

/-- Maximal depth of a forest (proof helper). -/
def qdepth : List (HeapNode α) → Nat
  | [] => 0
  | t :: q => max (depth t) (qdepth q)

theorem qdepth_append (a b : List (HeapNode α)) :
    qdepth (a ++ b) = max (qdepth a) (qdepth b) := by
  induction a with
  | nil => simp [qdepth]
  | cons t a ih => simp [qdepth, ih]; omega

theorem qdepth_levelChildren_le (B : Nat) : ∀ (q : List (HeapNode α)),
    allNodes q = true → qdepth q ≤ B + 1 → qdepth (levelChildren q) ≤ B := by
  intro q
  induction q with
  | nil => intro _ _; simp [levelChildren, qdepth]
  | cons t q ih =>
    intro hq hd
    cases t with
    | nil => simp [allNodes] at hq
    | node x l r =>
      simp only [allNodes] at hq
      simp only [qdepth, depth] at hd
      rw [levelChildren, qdepth_append]
      have hch : qdepth (bfsChildren (HeapNode.node x l r)) ≤ max (depth l) (depth r) := by
        cases l <;> cases r <;> simp [bfsChildren, qdepth, depth] <;> omega
      have := ih hq (by omega)
      omega

theorem bfsList_eq_levels : ∀ (B : Nat) (q : List (HeapNode α)),
    allNodes q = true → qdepth q ≤ B →
    bfsList q = ((List.range B).map (atDepthF q)).flatten := by
  intro B
  induction B with
  | zero =>
    intro q hq hd
    cases q with
    | nil => simp [bfsList]
    | cons t q =>
      cases t with
      | nil => simp [allNodes] at hq
      | node x l r => simp [qdepth, depth] at hd
  | succ B ih =>
    intro q hq hd
    cases q with
    | nil =>
      have : ∀ d, atDepthF ([] : List (HeapNode α)) d = [] := by
        intro d; simp [atDepthF]
      simp [bfsList, this]
    | cons t q2 =>
      rw [bfsList_step _ hq]
      rw [ih (levelChildren (t :: q2)) (allNodes_levelChildren _)
        (qdepth_levelChildren_le B _ hq hd)]
      rw [List.range_succ_eq_map]
      simp only [List.map_cons, List.flatten_cons, List.map_map]
      rw [← atDepthF_zero _ hq]
      congr 1
      apply congrArg
      apply List.map_congr_left
      intro d _
      exact (atDepthF_succ (t :: q2) d).symm

/-- Canonical level-order sequence of a tree: depth levels, each left to
right (proof helper). -/
def levelOrder (t : HeapNode α) : List α :=
  ((List.range (depth t)).map (atDepth t)).flatten

theorem bfsList_singleton (t : HeapNode α) : bfsList [t] = levelOrder t := by
  cases t with
  | nil => simp [bfsList, levelOrder, depth]
  | node x l r =>
    rw [bfsList_eq_levels (depth (HeapNode.node x l r)) [HeapNode.node x l r]
      (by simp [allNodes]) (by simp [qdepth])]
    unfold levelOrder
    congr 1
    apply List.map_congr_left
    intro d _
    simp [atDepthF]

theorem iterative_level_order_vec_eq (t : HeapNode α) :
    iterative_level_order_vec t = levelOrder t := by
  rw [iterative_level_order_vec, iterLevelLoop_eq_bfsList, bfsList_singleton]
  rfl

theorem iterative_consume_level_order_vec_eq (t : HeapNode α) :
    iterative_consume_level_order_vec t = levelOrder t := by
  rw [iterative_consume_level_order_vec, iterConsumeLevelLoop_eq_bfsList, bfsList_singleton]
  rfl

theorem recursive_height_eq_depth (t : HeapNode α) :
    recursive_height t = (depth t : Int) - 1 := by
  induction t with
  | nil => simp [recursive_height, depth]
  | node x l r ihl ihr =>
    simp only [recursive_height, depth, ihl, ihr]
    push_cast
    omega

theorem recursive_current_level_eq : ∀ (d : Nat) (t : HeapNode α) (e : List α),
    recursive_current_level t e ((d : Int) + 1) = e ++ atDepth t d := by
  intro d
  induction d with
  | zero =>
    intro t e
    cases t with
    | nil => simp [recursive_current_level, atDepth]
    | node x l r => simp [recursive_current_level, atDepth]
  | succ d ih =>
    intro t e
    cases t with
    | nil => simp [recursive_current_level, atDepth]
    | node x l r =>
      rw [recursive_current_level]
      have h1 : ¬ (((d : Int) + 1 + 1) < 1) := by omega
      have h2 : ¬ (((d : Int) + 1 + 1) = 1) := by omega
      have h3 : ((d : Nat) + 1 : Nat) = ((d : Int) + 1 + 1 - 1 : Int).toNat := by omega
      simp only [Nat.cast_add, Nat.cast_one, h1, if_false, h2]
      have h4 : ((d : Int) + 1 + 1 - 1) = (d : Int) + 1 := by ring
      rw [h4, ih l e, ih r (e ++ atDepth l d)]
      simp [atDepth]

theorem write_level_into_vec_eq : ∀ (d : Nat) (t : HeapNode α) (e : List α),
    write_level_into_vec t e (d : Int) = e ++ atDepth t d := by
  intro d
  induction d with
  | zero =>
    intro t e
    cases t with
    | nil => simp [write_level_into_vec, atDepth]
    | node x l r => simp [write_level_into_vec, atDepth]
  | succ d ih =>
    intro t e
    cases t with
    | nil => simp [write_level_into_vec, atDepth]
    | node x l r =>
      rw [write_level_into_vec]
      have h2 : ¬ (((d : Nat) + 1 : Nat) : Int) = 0 := by push_cast; omega
      rw [if_neg h2]
      have h4 : (((d : Nat) + 1 : Nat) : Int) - 1 = (d : Int) := by push_cast; ring
      rw [h4, ih l e, ih r (e ++ atDepth l d)]
      simp [atDepth]

theorem recursive_level_order_vec_eq (t : HeapNode α) (e : List α) :
    recursive_level_order_vec t e = e ++ levelOrder t := by
  rw [recursive_level_order_vec]
  have hn : (recursive_height t + 1).toNat = depth t := by
    rw [recursive_height_eq_depth]
    omega
  rw [hn]
  unfold levelOrder
  generalize depth t = n
  induction n generalizing e with
  | zero => simp
  | succ n ih =>
    rw [List.range_succ, List.foldl_append, ih]
    simp only [List.foldl_cons, List.foldl_nil, List.map_append, List.map_cons,
      List.map_nil, List.flatten_append]
    rw [recursive_current_level_eq n t]
    simp

theorem recursive_consume_level_order_vec_eq (t : HeapNode α) (e : List α) :
    recursive_consume_level_order_vec t e = e ++ levelOrder t := by
  rw [recursive_consume_level_order_vec]
  have hn : (recursive_height t + 1).toNat = depth t := by
    rw [recursive_height_eq_depth]
    omega
  rw [hn]
  unfold levelOrder
  generalize depth t = n
  induction n generalizing e with
  | zero => simp
  | succ n ih =>
    rw [List.range_succ, List.foldl_append, ih]
    simp only [List.foldl_cons, List.foldl_nil, List.map_append, List.map_cons,
      List.map_nil, List.flatten_append]
    rw [write_level_into_vec_eq n t]
    simp

end LevelOrderLemmas

section HeightLemmas

variable {α : Type}

theorem qdepth_bfsChildren (x : α) (l r : HeapNode α) :
    qdepth (bfsChildren (.node x l r)) = max (depth l) (depth r) := by
  cases l <;> cases r <;> simp [bfsChildren, qdepth, depth] <;> omega

theorem qdepth_levelChildren : ∀ (q : List (HeapNode α)),
    allNodes q = true → q ≠ [] → qdepth q = 1 + qdepth (levelChildren q) := by
  intro q
  induction q with
  | nil => intro _ h; exact absurd rfl h
  | cons t q ih =>
    intro hq _
    cases t with
    | nil => simp [allNodes] at hq
    | node x l r =>
      simp only [allNodes] at hq
      rw [levelChildren, qdepth_append, qdepth_bfsChildren]
      cases q with
      | nil => simp [qdepth, depth, levelChildren]
      | cons t2 q2 =>
        have := ih hq (by simp)
        simp only [qdepth, depth] at this ⊢
        omega

theorem iterHeightLoop_eq : ∀ (q : List (HeapNode α)) (h : Int),
    allNodes q = true → iterHeightLoop q h = some (h + (qdepth q : Int)) := by
  intro q h
  induction q, h using iterHeightLoop.induct with
  | case1 h => intro _; simp [iterHeightLoop, qdepth]
  | case2 t q h hall ih =>
    intro _
    rw [iterHeightLoop, dif_pos hall, ih (allNodes_levelChildren _)]
    rw [qdepth_levelChildren (t :: q) hall (by simp)]
    push_cast
    ring_nf
  | case3 t q h hall =>
    intro hq
    exact absurd hq hall

theorem iterative_height_nil : iterative_height (HeapNode.nil : HeapNode α) = none := by
  rw [iterative_height, iterHeightLoop]
  simp [allNodes]

theorem iterative_height_node (x : α) (l r : HeapNode α) :
    iterative_height (HeapNode.node x l r) = some (recursive_height (HeapNode.node x l r)) := by
  rw [iterative_height, iterHeightLoop_eq [HeapNode.node x l r] (-1) (by simp [allNodes])]
  rw [recursive_height_eq_depth]
  simp only [qdepth, depth]
  push_cast
  congr 1
  omega

theorem iterative_height_eq (t : HeapNode α) (hne : t ≠ .nil) :
    iterative_height t = some (recursive_height t) := by
  cases t with
  | nil => exact absurd rfl hne
  | node x l r => exact iterative_height_node x l r

end HeightLemmas

section OrderLemmas

variable {α : Type}

/-- Every value in the tree satisfies `p` (proof helper). -/
def AllTree (p : α → Prop) : HeapNode α → Prop
  | .nil => True
  | .node x l r => p x ∧ AllTree p l ∧ AllTree p r

theorem length_inOrder (t : HeapNode α) : (inOrder t).length = tsize t := by
  induction t with
  | nil => simp [inOrder, tsize]
  | node x l r ihl ihr => simp [inOrder, tsize, ihl, ihr]; omega

theorem AllTree_iff (p : α → Prop) (t : HeapNode α) :
    AllTree p t ↔ ∀ y ∈ inOrder t, p y := by
  induction t with
  | nil => simp [AllTree, inOrder]
  | node x l r ihl ihr =>
    simp only [AllTree, inOrder, List.mem_append, List.mem_cons, ihl, ihr]
    constructor
    · rintro ⟨hx, hl, hr⟩ y (hy | rfl | hy)
      · exact hl y hy
      · exact hx
      · exact hr y hy
    · intro h
      exact ⟨h x (Or.inr (Or.inl rfl)),
        fun y hy => h y (Or.inl hy),
        fun y hy => h y (Or.inr (Or.inr hy))⟩

theorem AllTree_mono {p q : α → Prop} (h : ∀ a, p a → q a) (t : HeapNode α)
    (ht : AllTree p t) : AllTree q t := by
  rw [AllTree_iff] at ht ⊢
  exact fun y hy => h y (ht y hy)

variable [LinearOrder α]

/-- The binary-search-tree ordering invariant of the data model (spec
section 3): strictly smaller values left, strictly greater right,
recursively. -/
def BST : HeapNode α → Prop
  | .nil => True
  | .node x l r => AllTree (· < x) l ∧ AllTree (x < ·) r ∧ BST l ∧ BST r

theorem BST_sorted (t : HeapNode α) (h : BST t) :
    List.Sorted (· < ·) (inOrder t) := by
  induction t with
  | nil => simp [inOrder]
  | node x l r ihl ihr =>
    obtain ⟨hlx, hxr, hl, hr⟩ := h
    rw [AllTree_iff] at hlx hxr
    rw [inOrder, List.Sorted, List.pairwise_append]
    refine ⟨ihl hl, ?_, ?_⟩
    · rw [List.pairwise_cons]
      exact ⟨fun y hy => hxr y hy, ihr hr⟩
    · intro a ha b hb
      rcases List.mem_cons.1 hb with rfl | hb
      · exact hlx a ha
      · exact lt_trans (hlx a ha) (hxr b hb)

theorem eq_of_not_lt_not_gt {a b : α} (h1 : ¬ a < b) (h2 : ¬ b < a) : a = b :=
  le_antisymm (not_lt.1 h2) (not_lt.1 h1)

theorem iterative_contains_mem (v : α) (t : HeapNode α)
    (h : iterative_contains v t = true) : v ∈ inOrder t := by
  induction t with
  | nil => simp [iterative_contains] at h
  | node x l r ihl ihr =>
    rw [iterative_contains] at h
    by_cases h1 : v < x
    · rw [if_pos h1] at h
      simp [inOrder, ihl h]
    · rw [if_neg h1] at h
      by_cases h2 : x < v
      · rw [if_pos h2] at h
        simp [inOrder, ihr h]
      · have : v = x := eq_of_not_lt_not_gt h1 h2
        simp [inOrder, this]

theorem mem_iterative_contains (v : α) (t : HeapNode α) (hb : BST t)
    (h : v ∈ inOrder t) : iterative_contains v t = true := by
  induction t with
  | nil => simp [inOrder] at h
  | node x l r ihl ihr =>
    obtain ⟨hlx, hxr, hl, hr⟩ := hb
    rw [AllTree_iff] at hlx hxr
    rw [inOrder] at h
    rw [iterative_contains]
    by_cases h1 : v < x
    · rw [if_pos h1]
      rcases List.mem_append.1 h with hil | hxr2
      · exact ihl hl hil
      · rcases List.mem_cons.1 hxr2 with rfl | hir
        · exact absurd h1 (lt_irrefl v)
        · exact absurd (lt_trans h1 (hxr v hir)) (lt_irrefl v)
    · rw [if_neg h1]
      by_cases h2 : x < v
      · rw [if_pos h2]
        rcases List.mem_append.1 h with hil | hxr2
        · exact absurd (lt_trans h2 (hlx v hil)) (lt_irrefl x)
        · rcases List.mem_cons.1 hxr2 with rfl | hir
          · exact absurd h2 (lt_irrefl v)
          · exact ihr hr hir
      · rw [if_neg h2]

theorem iterative_insert_mem (v : α) (t : HeapNode α) :
    ∀ y, y ∈ inOrder (iterative_insert v t).1 ↔ y ∈ inOrder t ∨ y = v := by
  induction t with
  | nil => intro y; simp [iterative_insert, inOrder]
  | node x l r ihl ihr =>
    intro y
    rw [iterative_insert]
    by_cases h1 : v < x
    · rw [if_pos h1]
      simp only [inOrder, List.mem_append, List.mem_cons, ihl y]
      tauto
    · rw [if_neg h1]
      by_cases h2 : x < v
      · rw [if_pos h2]
        simp only [inOrder, List.mem_append, List.mem_cons, ihr y]
        tauto
      · rw [if_neg h2]
        have hvx : v = x := eq_of_not_lt_not_gt h1 h2
        simp only [inOrder, List.mem_append, List.mem_cons]
        subst hvx
        tauto

theorem iterative_insert_AllTree {p : α → Prop} (v : α) (t : HeapNode α)
    (hp : p v) (ht : AllTree p t) : AllTree p (iterative_insert v t).1 := by
  rw [AllTree_iff] at ht ⊢
  intro y hy
  rcases (iterative_insert_mem v t y).1 hy with h | rfl
  · exact ht y h
  · exact hp

theorem iterative_insert_BST (v : α) (t : HeapNode α) (h : BST t) :
    BST (iterative_insert v t).1 := by
  induction t with
  | nil => simp [iterative_insert, BST, AllTree]
  | node x l r ihl ihr =>
    obtain ⟨hlx, hxr, hl, hr⟩ := h
    rw [iterative_insert]
    by_cases h1 : v < x
    · rw [if_pos h1]
      exact ⟨iterative_insert_AllTree v l h1 hlx, hxr, ihl hl, hr⟩
    · rw [if_neg h1]
      by_cases h2 : x < v
      · rw [if_pos h2]
        exact ⟨hlx, iterative_insert_AllTree v r h2 hxr, hl, ihr hr⟩
      · rw [if_neg h2]
        exact ⟨hlx, hxr, hl, hr⟩

theorem iterative_insert_snd (v : α) (t : HeapNode α) :
    (iterative_insert v t).2 = !iterative_contains v t := by
  induction t with
  | nil => simp [iterative_insert, iterative_contains]
  | node x l r ihl ihr =>
    rw [iterative_insert, iterative_contains]
    by_cases h1 : v < x
    · simpa [h1] using ihl
    · by_cases h2 : x < v
      · simpa [h1, h2] using ihr
      · simp [h1, h2]

theorem iterative_insert_of_contains (v : α) (t : HeapNode α)
    (h : iterative_contains v t = true) : (iterative_insert v t).1 = t := by
  induction t with
  | nil => simp [iterative_contains] at h
  | node x l r ihl ihr =>
    rw [iterative_contains] at h
    rw [iterative_insert]
    by_cases h1 : v < x
    · rw [if_pos h1] at h ⊢
      simp [ihl h]
    · rw [if_neg h1] at h ⊢
      by_cases h2 : x < v
      · rw [if_pos h2] at h ⊢
        simp [ihr h]
      · simp [h2]

theorem tsize_iterative_insert (v : α) (t : HeapNode α) :
    tsize (iterative_insert v t).1
      = tsize t + (if (iterative_insert v t).2 then 1 else 0) := by
  induction t with
  | nil => simp [iterative_insert, tsize]
  | node x l r ihl ihr =>
    rw [iterative_insert]
    by_cases h1 : v < x
    · rw [if_pos h1]
      simp only [tsize]
      omega
    · rw [if_neg h1]
      by_cases h2 : x < v
      · rw [if_pos h2]
        simp only [tsize]
        omega
      · rw [if_neg h2]
        simp [tsize]

end OrderLemmas

section RemoveLemmas

variable {α : Type} [LinearOrder α]

theorem irmf_inOrder (x : α) : ∀ (l r : HeapNode α),
    (iterative_remove_min_from x l r).1 :: inOrder (iterative_remove_min_from x l r).2
      = inOrder (.node x l r) := by
  intro l
  induction l generalizing x with
  | nil => intro r; simp [iterative_remove_min_from, inOrder]
  | node lx ll lr ihl _ =>
    intro r
    rw [iterative_remove_min_from]
    simp only [inOrder]
    rw [← List.cons_append, ihl lx lr]
    rfl

theorem irmf_tsize (x : α) (l r : HeapNode α) :
    tsize (iterative_remove_min_from x l r).2 + 1 = tsize (.node x l r) := by
  have h := irmf_inOrder x l r
  have := congrArg List.length h
  simpa [length_inOrder] using this

theorem irmf_AllTree {p : α → Prop} (x : α) (l r : HeapNode α)
    (h : AllTree p (.node x l r)) :
    p (iterative_remove_min_from x l r).1 ∧
      AllTree p (iterative_remove_min_from x l r).2 := by
  rw [AllTree_iff] at h
  rw [← irmf_inOrder x l r] at h
  exact ⟨h _ (List.mem_cons_self _ _),
    (AllTree_iff p _).2 fun y hy => h y (List.mem_cons_of_mem _ hy)⟩

theorem irmf_BST (x : α) : ∀ (l r : HeapNode α), BST (.node x l r) →
    BST (iterative_remove_min_from x l r).2 ∧
      AllTree ((iterative_remove_min_from x l r).1 < ·)
        (iterative_remove_min_from x l r).2 := by
  intro l
  induction l generalizing x with
  | nil =>
    intro r h
    obtain ⟨_, hxr, _, hr⟩ := h
    simp only [iterative_remove_min_from]
    exact ⟨hr, hxr⟩
  | node lx ll lr ihl _ =>
    intro r h
    obtain ⟨hlx, hxr, hl, hr⟩ := h
    rw [iterative_remove_min_from]
    have hbst := ihl lx lr hl
    have hall := irmf_AllTree lx ll lr (p := (· < x)) hlx
    constructor
    · exact ⟨hall.2, hxr, hbst.1, hr⟩
    · refine ⟨hall.1, hbst.2, ?_⟩
      exact AllTree_mono (fun a ha => lt_trans hall.1 ha) r hxr

theorem irxf_inOrder (x : α) : ∀ (l r : HeapNode α),
    inOrder (iterative_remove_max_from x l r).2 ++ [(iterative_remove_max_from x l r).1]
      = inOrder (.node x l r) := by
  intro l r
  induction r generalizing x l with
  | nil => simp [iterative_remove_max_from, inOrder]
  | node rx rl rr _ ihr =>
    rw [iterative_remove_max_from]
    simp only [inOrder]
    rw [List.append_assoc, List.cons_append, ihr rx rl]
    rfl

theorem irxf_tsize (x : α) (l r : HeapNode α) :
    tsize (iterative_remove_max_from x l r).2 + 1 = tsize (.node x l r) := by
  have h := irxf_inOrder x l r
  have := congrArg List.length h
  simpa [length_inOrder] using this

theorem irxf_AllTree {p : α → Prop} (x : α) (l r : HeapNode α)
    (h : AllTree p (.node x l r)) :
    p (iterative_remove_max_from x l r).1 ∧
      AllTree p (iterative_remove_max_from x l r).2 := by
  rw [AllTree_iff] at h
  rw [← irxf_inOrder x l r] at h
  constructor
  · exact h _ (by simp)
  · exact (AllTree_iff p _).2 fun y hy => h y (by simp [hy])

theorem irxf_BST (x : α) : ∀ (l r : HeapNode α), BST (.node x l r) →
    BST (iterative_remove_max_from x l r).2 ∧
      AllTree (· < (iterative_remove_max_from x l r).1)
        (iterative_remove_max_from x l r).2 := by
  intro x2 r
  induction r generalizing x x2 with
  | nil =>
    intro h
    obtain ⟨hlx, _, hl, _⟩ := h
    simp only [iterative_remove_max_from]
    exact ⟨hl, hlx⟩
  | node rx rl rr _ ihr =>
    intro h
    obtain ⟨hlx, hxr, hl, hr⟩ := h
    rw [iterative_remove_max_from]
    have hbst := ihr rx rl hr
    have hall := irxf_AllTree rx rl rr (p := (x < ·)) hxr
    constructor
    · exact ⟨hlx, hall.2, hl, hbst.1⟩
    · refine ⟨hall.1, ?_, hbst.2⟩
      exact AllTree_mono (fun a ha => lt_trans ha hall.1) x2 hlx

theorem recursive_remove_min_eq (x : α) : ∀ (l r : HeapNode α),
    recursive_remove_min x l r = iterative_remove_min_from x l r := by
  intro l
  induction l generalizing x with
  | nil => intro r; rw [recursive_remove_min, iterative_remove_min_from]
  | node lx ll lr ihl _ =>
    intro r
    rw [recursive_remove_min, iterative_remove_min_from, ihl lx lr]

theorem recursive_remove_max_eq (x : α) : ∀ (l r : HeapNode α),
    recursive_remove_max x l r = iterative_remove_max_from x l r := by
  intro l r
  induction r generalizing x l with
  | nil => rw [recursive_remove_max, iterative_remove_max_from]
  | node rx rl rr _ ihr =>
    rw [recursive_remove_max, iterative_remove_max_from, ihr rx rl]

theorem not_mem_of_AllTree_lt (x : α) (l : HeapNode α) (h : AllTree (· < x) l) :
    x ∉ inOrder l := by
  rw [AllTree_iff] at h
  intro hx
  exact absurd (h x hx) (lt_irrefl x)

theorem not_mem_of_AllTree_gt (x : α) (r : HeapNode α) (h : AllTree (x < ·) r) :
    x ∉ inOrder r := by
  rw [AllTree_iff] at h
  intro hx
  exact absurd (h x hx) (lt_irrefl x)

theorem iterative_remove_snd (v : α) (t : HeapNode α) :
    (iterative_remove v t).2 = iterative_contains v t := by
  induction t with
  | nil => simp only [iterative_remove, iterative_contains]
  | node x l r ihl ihr =>
    simp only [iterative_remove]
    rw [iterative_contains]
    by_cases h1 : v < x
    · simpa [h1] using ihl
    · by_cases h2 : x < v
      · simpa [h1, h2] using ihr
      · rcases l with _ | ⟨la, lb, lc⟩ <;> rcases r with _ | ⟨ra, rb, rc⟩ <;> simp [h1, h2]

theorem iterative_remove_of_not_contains (v : α) (t : HeapNode α)
    (h : iterative_contains v t = false) : (iterative_remove v t).1 = t := by
  induction t with
  | nil => simp only [iterative_remove]
  | node x l r ihl ihr =>
    rw [iterative_contains] at h
    simp only [iterative_remove]
    by_cases h1 : v < x
    · rw [if_pos h1] at h ⊢
      simp [ihl h]
    · rw [if_neg h1] at h ⊢
      by_cases h2 : x < v
      · rw [if_pos h2] at h ⊢
        simp [ihr h]
      · rw [if_neg h2] at h
        exact absurd h (by simp)

theorem iterative_remove_subset (v : α) (t : HeapNode α) :
    ∀ y, y ∈ inOrder (iterative_remove v t).1 → y ∈ inOrder t := by
  induction t with
  | nil => intro y hy; simpa only [iterative_remove] using hy
  | node x l r ihl ihr =>
    intro y hy
    simp only [iterative_remove] at hy
    by_cases h1 : v < x
    · rw [if_pos h1] at hy
      simp only [inOrder, List.mem_append, List.mem_cons] at hy ⊢
      rcases hy with hy | hy
      · exact Or.inl (ihl y hy)
      · exact Or.inr hy
    · rw [if_neg h1] at hy
      by_cases h2 : x < v
      · rw [if_pos h2] at hy
        simp only [inOrder, List.mem_append, List.mem_cons] at hy ⊢
        rcases hy with hy | rfl | hy
        · exact Or.inl hy
        · exact Or.inr (Or.inl rfl)
        · exact Or.inr (Or.inr (ihr y hy))
      · rw [if_neg h2] at hy
        rcases l with _ | ⟨la, lb, lc⟩ <;> rcases r with _ | ⟨ra, rb, rc⟩
        · simp [inOrder] at hy
        · simp only [inOrder, List.mem_append, List.mem_cons] at hy ⊢
          tauto
        · simp only [inOrder, List.mem_append, List.mem_cons] at hy ⊢
          tauto
        · simp only [inOrder, List.mem_append, List.mem_cons] at hy ⊢
          rcases hy with hy | rfl | hy
          · tauto
          · have := irmf_inOrder ra rb rc
            have hmem : (iterative_remove_min_from ra rb rc).1
                ∈ inOrder (HeapNode.node ra rb rc) := by
              rw [← this]
              exact List.mem_cons_self _ _
            simp only [inOrder, List.mem_append, List.mem_cons] at hmem
            tauto
          · have := irmf_inOrder ra rb rc
            have hmem : y ∈ inOrder (HeapNode.node ra rb rc) := by
              rw [← this]
              exact List.mem_cons_of_mem _ hy
            simp only [inOrder, List.mem_append, List.mem_cons] at hmem
            tauto

theorem iterative_remove_BST (v : α) (t : HeapNode α) (h : BST t) :
    BST (iterative_remove v t).1 := by
  induction t with
  | nil => simp only [iterative_remove]; trivial
  | node x l r ihl ihr =>
    obtain ⟨hlx, hxr, hl, hr⟩ := h
    simp only [iterative_remove]
    by_cases h1 : v < x
    · rw [if_pos h1]
      refine ⟨?_, hxr, ihl hl, hr⟩
      rw [AllTree_iff] at hlx ⊢
      exact fun y hy => hlx y (iterative_remove_subset v l y hy)
    · rw [if_neg h1]
      by_cases h2 : x < v
      · rw [if_pos h2]
        refine ⟨hlx, ?_, hl, ihr hr⟩
        rw [AllTree_iff] at hxr ⊢
        exact fun y hy => hxr y (iterative_remove_subset v r y hy)
      · rw [if_neg h2]
        rcases l with _ | ⟨la, lb, lc⟩ <;> rcases r with _ | ⟨ra, rb, rc⟩
        · trivial
        · exact hr
        · exact hl
        · have hbst := irmf_BST ra rb rc hr
          have hm := irmf_AllTree ra rb rc (p := (x < ·)) hxr
          refine ⟨?_, hbst.2, hl, hbst.1⟩
          exact AllTree_mono (fun a ha => lt_trans ha hm.1) _ hlx

theorem iterative_remove_erase (v : α) (t : HeapNode α) (hb : BST t)
    (hm : v ∈ inOrder t) :
    inOrder (iterative_remove v t).1 = (inOrder t).erase v := by
  induction t with
  | nil => simp [inOrder] at hm
  | node x l r ihl ihr =>
    obtain ⟨hlx, hxr, hl, hr⟩ := hb
    simp only [iterative_remove]
    by_cases h1 : v < x
    · rw [if_pos h1]
      have hvl : v ∈ inOrder l := by
        rw [inOrder] at hm
        rcases List.mem_append.1 hm with h | h
        · exact h
        · rcases List.mem_cons.1 h with rfl | h
          · exact absurd h1 (lt_irrefl v)
          · rw [AllTree_iff] at hxr
            exact absurd (lt_trans h1 (hxr v h)) (lt_irrefl v)
      simp only [inOrder]
      rw [ihl hl hvl, List.erase_append_left _ hvl]
    · rw [if_neg h1]
      by_cases h2 : x < v
      · rw [if_pos h2]
        have hvr : v ∈ inOrder r := by
          rw [inOrder] at hm
          rcases List.mem_append.1 hm with h | h
          · rw [AllTree_iff] at hlx
            exact absurd (lt_trans h2 (hlx v h)) (lt_irrefl x)
          · rcases List.mem_cons.1 h with rfl | h
            · exact absurd h2 (lt_irrefl v)
            · exact h
        have hvnl : v ∉ inOrder l := by
          rw [AllTree_iff] at hlx
          intro hin
          exact absurd (lt_trans h2 (hlx v hin)) (lt_irrefl x)
        simp only [inOrder]
        rw [ihr hr hvr, List.erase_append_right _ hvnl,
          List.erase_cons_tail (not_beq_of_ne (ne_of_lt h2))]
      · rw [if_neg h2]
        have hvx : v = x := eq_of_not_lt_not_gt h1 h2
        subst hvx
        have hvnl : v ∉ inOrder l := not_mem_of_AllTree_lt v l hlx
        rcases l with _ | ⟨la, lb, lc⟩ <;> rcases r with _ | ⟨ra, rb, rc⟩
        · simp [inOrder]
        · simp only [inOrder, List.nil_append]
          rw [List.erase_cons_head]
        · have hio : inOrder (HeapNode.node v (HeapNode.node la lb lc) HeapNode.nil)
              = inOrder (HeapNode.node la lb lc) ++ [v] := rfl
          rw [hio, List.erase_append_right _ hvnl, List.erase_cons_head]
          simp
        · have hio : inOrder (HeapNode.node v (HeapNode.node la lb lc) (HeapNode.node ra rb rc))
              = inOrder (HeapNode.node la lb lc) ++ v :: inOrder (HeapNode.node ra rb rc) := rfl
          rw [hio, List.erase_append_right _ hvnl, List.erase_cons_head]
          rw [← irmf_inOrder ra rb rc]
          rfl

theorem tsize_iterative_remove (v : α) (t : HeapNode α) :
    tsize t = tsize (iterative_remove v t).1
      + (if (iterative_remove v t).2 then 1 else 0) := by
  induction t with
  | nil => simp [iterative_remove, tsize]
  | node x l r ihl ihr =>
    simp only [iterative_remove]
    by_cases h1 : v < x
    · rw [if_pos h1]
      simp only [tsize]
      omega
    · rw [if_neg h1]
      by_cases h2 : x < v
      · rw [if_pos h2]
        simp only [tsize]
        omega
      · rw [if_neg h2]
        rcases l with _ | ⟨la, lb, lc⟩ <;> rcases r with _ | ⟨ra, rb, rc⟩
        · simp [tsize]
        · simp [tsize]
          omega
        · simp [tsize]
          omega
        · have := irmf_tsize ra rb rc
          simp only [tsize] at this ⊢
          simp only [if_true]
          omega

theorem recursive_insert_eq (v : α) : ∀ (x : α) (l r : HeapNode α),
    recursive_insert v x l r = iterative_insert v (.node x l r) := by
  intro x l r
  induction x, l, r using recursive_insert.induct v with
  | case1 x r h1 =>
    rw [recursive_insert.eq_def]
    simp [iterative_insert, h1]
  | case2 x r h1 lx ll lr ih =>
    rw [iterative_insert, if_pos h1, ← ih]
    rw [recursive_insert.eq_def]
    simp [h1]
  | case3 x l h1 h2 =>
    rw [recursive_insert.eq_def]
    simp [iterative_insert, h1, h2]
  | case4 x l h1 h2 rx rl rr ih =>
    rw [iterative_insert, if_neg h1, if_pos h2, ← ih]
    rw [recursive_insert.eq_def]
    simp [h1, h2]
  | case5 x l r h1 h2 =>
    rw [recursive_insert.eq_def]
    simp [iterative_insert, h1, h2]

end RemoveLemmas

section StrategyLemmas

variable {α : Type} [LinearOrder α]

theorem recursive_contains_eq (v : α) : ∀ (x : α) (l r : HeapNode α),
    recursive_contains v x l r = iterative_contains v (.node x l r) := by
  intro x l r
  induction x, l, r using recursive_contains.induct v with
  | case1 x r h1 =>
    rw [recursive_contains.eq_def, iterative_contains]
    simp [iterative_contains, h1]
  | case2 x r h1 lx ll lr ih =>
    rw [recursive_contains.eq_def, iterative_contains, if_pos h1, ← ih]
    simp [h1]
  | case3 x l h1 h2 =>
    rw [recursive_contains.eq_def, iterative_contains]
    simp [iterative_contains, h1, h2]
  | case4 x l h1 h2 rx rl rr ih =>
    rw [recursive_contains.eq_def, iterative_contains, if_neg h1, if_pos h2, ← ih]
    simp [h1, h2]
  | case5 x l r h1 h2 =>
    rw [recursive_contains.eq_def, iterative_contains]
    simp [h1, h2]

theorem recursive_retrieve_eq (v : α) : ∀ (x : α) (l r : HeapNode α),
    recursive_retrieve v x l r = iterative_retrieve v (.node x l r) := by
  intro x l r
  induction x, l, r using recursive_retrieve.induct v with
  | case1 x r h1 =>
    rw [recursive_retrieve.eq_def, iterative_retrieve]
    simp [iterative_retrieve, h1]
  | case2 x r h1 lx ll lr ih =>
    rw [recursive_retrieve.eq_def, iterative_retrieve, if_pos h1, ← ih]
    simp [h1]
  | case3 x l h1 h2 =>
    rw [recursive_retrieve.eq_def, iterative_retrieve]
    simp [iterative_retrieve, h1, h2]
  | case4 x l h1 h2 rx rl rr ih =>
    rw [recursive_retrieve.eq_def, iterative_retrieve, if_neg h1, if_pos h2, ← ih]
    simp [h1, h2]
  | case5 x l r h1 h2 =>
    rw [recursive_retrieve.eq_def, iterative_retrieve]
    simp [h1, h2]

theorem recursive_remove_eq (v : α) (t : HeapNode α) :
    recursive_remove v t = iterative_remove v t := by
  induction t with
  | nil => simp [recursive_remove, iterative_remove]
  | node x l r ihl ihr =>
    simp only [recursive_remove, iterative_remove]
    by_cases h1 : v < x
    · simp [h1, ihl]
    · by_cases h2 : x < v
      · simp [h1, h2, ihr]
      · simp only [if_neg h1, if_neg h2]
        rcases l with _ | ⟨la, lb, lc⟩ <;> rcases r with _ | ⟨ra, rb, rc⟩ <;>
          simp [recursive_remove_min_eq]

theorem recursive_min_eq : ∀ (x : α) (l r : HeapNode α),
    iterative_min (.node x l r) = some (recursive_min x l r) := by
  intro x l r
  induction l generalizing x r with
  | nil => simp [iterative_min, recursive_min]
  | node lx ll lr ihl _ =>
    rw [iterative_min, recursive_min, ihl lx lr]

theorem recursive_max_eq : ∀ (x : α) (l r : HeapNode α),
    iterative_max (.node x l r) = some (recursive_max x l r) := by
  intro x l r
  induction r generalizing x l with
  | nil => simp [iterative_max, recursive_max]
  | node rx rl rr _ ihr =>
    rw [iterative_max, recursive_max, ihr rx rl]

theorem applyOp_strategy_eq (bi : IterativeBST α) (br : RecursiveBST α)
    (hroot : bi.root = br.root) (hsize : bi.size = br.size) (op : Op α) :
    (bi.applyOp op).root = (br.applyOp op).root
      ∧ (bi.applyOp op).size = (br.applyOp op).size := by
  obtain ⟨t, n⟩ := bi
  obtain ⟨t2, n2⟩ := br
  dsimp only at hroot hsize
  subst hroot
  subst hsize
  cases op with
  | ins v =>
    cases t with
    | nil =>
      simp [IterativeBST.applyOp, RecursiveBST.applyOp, IterativeBST.insert,
        RecursiveBST.insert, iterative_insert]
    | node x l r =>
      simp [IterativeBST.applyOp, RecursiveBST.applyOp, IterativeBST.insert,
        RecursiveBST.insert, recursive_insert_eq]
  | del v =>
    simp [IterativeBST.applyOp, RecursiveBST.applyOp, IterativeBST.remove,
      RecursiveBST.remove, recursive_remove_eq]
  | delMin =>
    cases t with
    | nil =>
      simp [IterativeBST.applyOp, RecursiveBST.applyOp, IterativeBST.remove_min,
        RecursiveBST.remove_min, iterative_remove_min]
    | node x l r =>
      simp [IterativeBST.applyOp, RecursiveBST.applyOp, IterativeBST.remove_min,
        RecursiveBST.remove_min, iterative_remove_min, recursive_remove_min_eq]
  | delMax =>
    cases t with
    | nil =>
      simp [IterativeBST.applyOp, RecursiveBST.applyOp, IterativeBST.remove_max,
        RecursiveBST.remove_max, iterative_remove_max]
    | node x l r =>
      simp [IterativeBST.applyOp, RecursiveBST.applyOp, IterativeBST.remove_max,
        RecursiveBST.remove_max, iterative_remove_max, recursive_remove_max_eq]

theorem applyOps_strategy_eq (ops : List (Op α)) :
    ∀ (bi : IterativeBST α) (br : RecursiveBST α),
    bi.root = br.root → bi.size = br.size →
    (bi.applyOps ops).root = (br.applyOps ops).root
      ∧ (bi.applyOps ops).size = (br.applyOps ops).size := by
  induction ops with
  | nil => intro bi br h1 h2; exact ⟨h1, h2⟩
  | cons op ops ih =>
    intro bi br h1 h2
    have := applyOp_strategy_eq bi br h1 h2 op
    exact ih (bi.applyOp op) (br.applyOp op) this.1 this.2

/-- The container invariant of spec sections 3 and 4.2: the root is an
ordered search tree and `size` counts its nodes. -/
def Inv (b : IterativeBST α) : Prop :=
  BST b.root ∧ b.size = tsize b.root

theorem Inv_new : Inv (IterativeBST.new : IterativeBST α) := by
  constructor
  · trivial
  · rfl

theorem applyOp_Inv (b : IterativeBST α) (h : Inv b) (op : Op α) :
    Inv (b.applyOp op) := by
  obtain ⟨hbst, hsize⟩ := h
  cases op with
  | ins v =>
    refine ⟨iterative_insert_BST v b.root hbst, ?_⟩
    simp only [IterativeBST.applyOp, IterativeBST.insert]
    have := tsize_iterative_insert v b.root
    by_cases hs : (iterative_insert v b.root).2 <;> simp [hs] at this ⊢ <;> omega
  | del v =>
    refine ⟨iterative_remove_BST v b.root hbst, ?_⟩
    simp only [IterativeBST.applyOp, IterativeBST.remove]
    have := tsize_iterative_remove v b.root
    by_cases hs : (iterative_remove v b.root).2 <;> simp [hs] at this ⊢ <;> omega
  | delMin =>
    simp only [IterativeBST.applyOp, IterativeBST.remove_min]
    cases hr : b.root with
    | nil => rw [hr] at hsize; simp [iterative_remove_min, hsize, Inv, hr, BST]
    | node x l r =>
      rw [hr] at hbst hsize
      have hbst2 := irmf_BST x l r hbst
      have hts := irmf_tsize x l r
      constructor
      · simpa [iterative_remove_min] using hbst2.1
      · simp only [iterative_remove_min, Option.isSome_some, if_true]
        omega
  | delMax =>
    simp only [IterativeBST.applyOp, IterativeBST.remove_max]
    cases hr : b.root with
    | nil => rw [hr] at hsize; simp [iterative_remove_max, hsize, Inv, hr, BST]
    | node x l r =>
      rw [hr] at hbst hsize
      have hbst2 := irxf_BST x l r hbst
      have hts := irxf_tsize x l r
      constructor
      · simpa [iterative_remove_max] using hbst2.1
      · simp only [iterative_remove_max, Option.isSome_some, if_true]
        omega

theorem applyOps_Inv (ops : List (Op α)) :
    ∀ (b : IterativeBST α), Inv b → Inv (b.applyOps ops) := by
  induction ops with
  | nil => intro b h; exact h
  | cons op ops ih =>
    intro b h
    exact ih (b.applyOp op) (applyOp_Inv b h op)

theorem tsize_eq_zero_iff (t : HeapNode α) : tsize t = 0 ↔ t = .nil := by
  cases t <;> simp [tsize]

theorem iterBST_in_order_vec_eq (b : IterativeBST α) :
    b.in_order_vec = inOrder b.root :=
  iterative_in_order_vec_eq b.root

theorem recBST_in_order_vec_eq (b : RecursiveBST α) :
    b.in_order_vec = inOrder b.root :=
  recursive_in_order_vec_eq b.root []

theorem iterBST_pre_order_vec_eq (b : IterativeBST α) :
    b.pre_order_vec = preOrder b.root :=
  iterative_pre_order_vec_eq b.root

theorem recBST_pre_order_vec_eq (b : RecursiveBST α) :
    b.pre_order_vec = preOrder b.root :=
  recursive_pre_order_vec_eq b.root []

theorem iterBST_post_order_vec_eq (b : IterativeBST α) :
    b.post_order_vec = postOrder b.root :=
  iterative_post_order_vec_eq b.root

theorem recBST_post_order_vec_eq (b : RecursiveBST α) :
    b.post_order_vec = postOrder b.root :=
  recursive_post_order_vec_eq b.root []

theorem iterBST_level_order_vec_eq (b : IterativeBST α) :
    b.level_order_vec = levelOrder b.root :=
  iterative_level_order_vec_eq b.root

theorem recBST_level_order_vec_eq (b : RecursiveBST α) :
    b.level_order_vec = levelOrder b.root := by
  rw [RecursiveBST.level_order_vec, recursive_level_order_vec_eq]
  rfl

end StrategyLemmas

section Claims

variable {α : Type}

/-- C1: for every tree reachable from an empty tree by any sequence of
`insert`, `remove`, `remove_min` and `remove_max` operations (in either
strategy), the in-order traversal (`in_order_vec` / `asc_order_vec`)
yields a strictly ascending sequence of values. -/
theorem claim_C1 [LinearOrder α] (ops : List (Op α)) :
    List.Sorted (· < ·) ((IterativeBST.new.applyOps ops).in_order_vec)
      ∧ List.Sorted (· < ·) ((IterativeBST.new.applyOps ops).asc_order_vec)
      ∧ List.Sorted (· < ·) ((RecursiveBST.new.applyOps ops).in_order_vec)
      ∧ List.Sorted (· < ·) ((RecursiveBST.new.applyOps ops).asc_order_vec) := by
  have hinv := applyOps_Inv ops IterativeBST.new Inv_new
  have hstr := applyOps_strategy_eq ops IterativeBST.new RecursiveBST.new rfl rfl
  have hsorted : List.Sorted (· < ·) (inOrder (IterativeBST.new.applyOps ops).root) :=
    BST_sorted _ hinv.1
  have hiter : (IterativeBST.new.applyOps ops).in_order_vec
      = inOrder (IterativeBST.new.applyOps ops).root :=
    iterBST_in_order_vec_eq _
  have hrec : (RecursiveBST.new.applyOps ops).in_order_vec
      = inOrder (IterativeBST.new.applyOps ops).root := by
    rw [recBST_in_order_vec_eq, hstr.1]
  refine ⟨?_, ?_, ?_, ?_⟩
  · rw [hiter]; exact hsorted
  · rw [IterativeBST.asc_order_vec, hiter]; exact hsorted
  · rw [hrec]; exact hsorted
  · rw [show (RecursiveBST.new.applyOps ops).asc_order_vec
        = (RecursiveBST.new.applyOps ops).in_order_vec from rfl, hrec]
    exact hsorted

/-- C2: for any fixed sequence of operations applied to both an
`IterativeBST` and a `RecursiveBST` starting empty, the two trees produce
identical `in_order`, `pre_order`, `post_order` and `level_order`
outputs; moreover the two trees themselves (root links, hence shapes,
and sizes) are identical, which in particular covers identical insertion
order on non-duplicate inputs. -/
theorem claim_C2 [LinearOrder α] (ops : List (Op α)) :
    (IterativeBST.new.applyOps ops).root = (RecursiveBST.new.applyOps ops).root
      ∧ (IterativeBST.new.applyOps ops).size = (RecursiveBST.new.applyOps ops).size
      ∧ (IterativeBST.new.applyOps ops).in_order_vec
          = (RecursiveBST.new.applyOps ops).in_order_vec
      ∧ (IterativeBST.new.applyOps ops).pre_order_vec
          = (RecursiveBST.new.applyOps ops).pre_order_vec
      ∧ (IterativeBST.new.applyOps ops).post_order_vec
          = (RecursiveBST.new.applyOps ops).post_order_vec
      ∧ (IterativeBST.new.applyOps ops).level_order_vec
          = (RecursiveBST.new.applyOps ops).level_order_vec := by
  have hstr := applyOps_strategy_eq ops IterativeBST.new RecursiveBST.new rfl rfl
  refine ⟨hstr.1, hstr.2, ?_, ?_, ?_, ?_⟩
  · rw [iterBST_in_order_vec_eq, recBST_in_order_vec_eq, hstr.1]
  · rw [iterBST_pre_order_vec_eq, recBST_pre_order_vec_eq, hstr.1]
  · rw [iterBST_post_order_vec_eq, recBST_post_order_vec_eq, hstr.1]
  · rw [iterBST_level_order_vec_eq, recBST_level_order_vec_eq, hstr.1]

/-- C10: for every tree (any container state) and each of the four
traversal orders, the consuming traversal yields exactly the same
sequence of values as the corresponding borrowing traversal, in both
strategies — including the destructive link-stealing iterative consuming
in-order loop and the recursive consuming level-order scheme. -/
theorem claim_C10 (bi : IterativeBST α) (br : RecursiveBST α) :
    (bi.into_pre_order_list = bi.pre_order_vec
      ∧ bi.into_in_order_list = bi.in_order_vec
      ∧ bi.into_post_order_list = bi.post_order_vec
      ∧ bi.into_level_order_list = bi.level_order_vec)
    ∧ (br.into_pre_order_list = br.pre_order_vec
      ∧ br.into_in_order_list = br.in_order_vec
      ∧ br.into_post_order_list = br.post_order_vec
      ∧ br.into_level_order_list = br.level_order_vec) := by
  constructor
  · refine ⟨?_, ?_, ?_, ?_⟩
    · rw [IterativeBST.into_pre_order_list, IterativeBST.pre_order_vec,
        iterative_consume_pre_order_vec_eq, iterative_pre_order_vec_eq]
    · rw [IterativeBST.into_in_order_list, IterativeBST.in_order_vec,
        iterative_consume_in_order_vec_eq, iterative_in_order_vec_eq]
    · rw [IterativeBST.into_post_order_list, IterativeBST.post_order_vec,
        iterative_consume_post_order_vec_eq, iterative_post_order_vec_eq]
    · rw [IterativeBST.into_level_order_list, IterativeBST.level_order_vec,
        iterative_consume_level_order_vec_eq, iterative_level_order_vec_eq]
  · refine ⟨?_, ?_, ?_, ?_⟩
    · rw [RecursiveBST.into_pre_order_list, RecursiveBST.pre_order_vec,
        recursive_consume_pre_order_vec_eq, recursive_pre_order_vec_eq]
    · rw [RecursiveBST.into_in_order_list, RecursiveBST.in_order_vec,
        recursive_consume_in_order_vec_eq, recursive_in_order_vec_eq]
    · rw [RecursiveBST.into_post_order_list, RecursiveBST.post_order_vec,
        recursive_consume_post_order_vec_eq, recursive_post_order_vec_eq]
    · rw [RecursiveBST.into_level_order_list, RecursiveBST.level_order_vec,
        recursive_consume_level_order_vec_eq, recursive_level_order_vec_eq]

/-- C3: for every search tree and every value `v` present in it,
`remove(&v)` succeeds (both strategies, which agree) and afterwards the
in-order sequence equals the original in-order sequence with `v`
deleted — this single statement covers all three structural cases; in
the two-children case the found node is not unlinked: the result keeps
the node with its value overwritten by the minimum extracted from its
right subtree, which is the smallest value originally greater than
`v`. -/
theorem claim_C3 [LinearOrder α] (t : HeapNode α) (v : α) (hb : BST t)
    (hm : v ∈ inOrder t) :
    ((iterative_remove v t).2 = true
      ∧ inOrder (iterative_remove v t).1 = (inOrder t).erase v
      ∧ recursive_remove v t = iterative_remove v t)
    ∧ (∀ (x la : α) (lb lc : HeapNode α) (ra : α) (rb rc : HeapNode α),
        t = .node x (.node la lb lc) (.node ra rb rc) → v = x →
        (iterative_remove v t).1
            = .node (iterative_remove_min_from ra rb rc).1 (.node la lb lc)
                (iterative_remove_min_from ra rb rc).2
          ∧ (iterative_remove_min_from ra rb rc).1 ∈ inOrder (.node ra rb rc)
          ∧ ∀ y ∈ inOrder t, v < y → (iterative_remove_min_from ra rb rc).1 ≤ y) := by
  constructor
  · refine ⟨?_, iterative_remove_erase v t hb hm, recursive_remove_eq v t⟩
    rw [iterative_remove_snd]
    exact mem_iterative_contains v t hb hm
  · intro x la lb lc ra rb rc ht hv
    subst ht
    subst hv
    obtain ⟨hlx, hxr, hl, hr⟩ := hb
    have hme : (iterative_remove_min_from ra rb rc).1
        ∈ inOrder (HeapNode.node ra rb rc) := by
      rw [← irmf_inOrder ra rb rc]
      exact List.mem_cons_self _ _
    refine ⟨?_, hme, ?_⟩
    · simp only [iterative_remove]
      rw [if_neg (lt_irrefl v), if_neg (lt_irrefl v)]
    · intro y hy hvy
      have hyr : y ∈ inOrder (HeapNode.node ra rb rc) := by
        rw [inOrder] at hy
        rcases List.mem_append.1 hy with h | h
        · rw [AllTree_iff] at hlx
          exact absurd (lt_trans hvy (hlx y h)) (lt_irrefl v)
        · rcases List.mem_cons.1 h with heq | h
          · rw [heq] at hvy
            exact absurd hvy (lt_irrefl _)
          · exact h
      have hsorted : List.Sorted (· < ·) (inOrder (HeapNode.node ra rb rc)) :=
        BST_sorted _ hr
      rw [← irmf_inOrder ra rb rc] at hsorted hyr
      rcases List.mem_cons.1 hyr with heq | h
      · exact le_of_eq heq.symm
      · exact le_of_lt ((List.pairwise_cons.1 hsorted).1 y h)

/-- C3 witness: removing 2 from the two-children tree ⟨2 | 1, 3⟩ leaves
the in-order sequence [1, 3]. -/
theorem claim_C3_witness :
    inOrder (iterative_remove (2 : Int)
        (.node 2 (.node 1 .nil .nil) (.node 3 .nil .nil))).1
      = (inOrder (.node 2 (.node 1 .nil .nil) (.node 3 .nil .nil)
          : HeapNode Int)).erase 2 :=
  (claim_C3 _ 2 (by simp [BST, AllTree]) (by decide)).1.2.1

/-- C4: after any sequence of operations on either container, `size()`
equals the number of nodes reachable from the root (the length of the
in-order traversal's output), `is_empty()` holds exactly when the root
is absent, and each mutating operation adjusts `size` by one exactly
when the node algebra reports success. -/
theorem claim_C4 [LinearOrder α] (ops : List (Op α)) :
    (IterativeBST.new.applyOps ops).size
        = ((IterativeBST.new.applyOps ops).in_order_vec).length
    ∧ (RecursiveBST.new.applyOps ops).size
        = ((RecursiveBST.new.applyOps ops).in_order_vec).length
    ∧ ((IterativeBST.new.applyOps ops).is_empty = true
        ↔ (IterativeBST.new.applyOps ops).root = .nil)
    ∧ ((RecursiveBST.new.applyOps ops).is_empty = true
        ↔ (RecursiveBST.new.applyOps ops).root = .nil)
    ∧ (∀ v, ((IterativeBST.new.applyOps ops).insert v).size
        = (IterativeBST.new.applyOps ops).size
          + (if (iterative_insert v (IterativeBST.new.applyOps ops).root).2
              then 1 else 0))
    ∧ (∀ v, ((IterativeBST.new.applyOps ops).remove v).size
          + (if (iterative_remove v (IterativeBST.new.applyOps ops).root).2
              then 1 else 0)
        = (IterativeBST.new.applyOps ops).size)
    ∧ (((IterativeBST.new.applyOps ops).remove_min.2).size
          + (if (iterative_remove_min (IterativeBST.new.applyOps ops).root).1.isSome
              then 1 else 0)
        = (IterativeBST.new.applyOps ops).size)
    ∧ (((IterativeBST.new.applyOps ops).remove_max.2).size
          + (if (iterative_remove_max (IterativeBST.new.applyOps ops).root).1.isSome
              then 1 else 0)
        = (IterativeBST.new.applyOps ops).size) := by
  have hinv := applyOps_Inv ops IterativeBST.new Inv_new
  have hstr := applyOps_strategy_eq ops IterativeBST.new RecursiveBST.new rfl rfl
  obtain ⟨hbst, hsize⟩ := hinv
  refine ⟨?_, ?_, ?_, ?_, ?_, ?_, ?_, ?_⟩
  · rw [iterBST_in_order_vec_eq, length_inOrder]
    exact hsize
  · rw [recBST_in_order_vec_eq, length_inOrder, ← hstr.1, ← hstr.2]
    exact hsize
  · rw [IterativeBST.is_empty, beq_iff_eq, hsize, tsize_eq_zero_iff]
  · rw [RecursiveBST.is_empty, beq_iff_eq, ← hstr.1, ← hstr.2, hsize, tsize_eq_zero_iff]
  · intro v
    rw [IterativeBST.insert]
    by_cases hs : (iterative_insert v (IterativeBST.new.applyOps ops).root).2 <;>
      simp [hs]
  · intro v
    rw [IterativeBST.remove]
    by_cases hs : (iterative_remove v (IterativeBST.new.applyOps ops).root).2
    · have hts := tsize_iterative_remove v (IterativeBST.new.applyOps ops).root
      rw [hs] at hts
      simp only [if_true] at hts
      simp [hs, hsize]
      omega
    · simp [hs]
  · cases hr : (IterativeBST.new.applyOps ops).root with
    | nil => simp [IterativeBST.remove_min, hr, iterative_remove_min]
    | node x l r =>
      have hts := irmf_tsize x l r
      rw [hr] at hsize
      simp [IterativeBST.remove_min, hr, iterative_remove_min, hsize]
      omega
  · cases hr : (IterativeBST.new.applyOps ops).root with
    | nil => simp [IterativeBST.remove_max, hr, iterative_remove_max]
    | node x l r =>
      have hts := irxf_tsize x l r
      rw [hr] at hsize
      simp [IterativeBST.remove_max, hr, iterative_remove_max, hsize]
      omega

/-- C5 counterexample: the node-level iterative height does not return
−1 for an absent tree — its first queue pop unwraps the absent link and
panics (modelled as `none`), while the recursive form returns −1. -/
theorem claim_C5_counterexample :
    iterative_height (HeapNode.nil : HeapNode Int) = none
      ∧ recursive_height (HeapNode.nil : HeapNode Int) = -1 :=
  ⟨iterative_height_nil, rfl⟩

/-- C5 (amended): the recursive node-level height returns −1 for an
absent tree and 0 for a single-node tree; the iterative (breadth-first
level counting) form returns 0 for a single-node tree and agrees with
the recursive form on every present tree link, but on an absent link it
panics on an unwrap instead of returning −1. -/
theorem claim_C5 :
    recursive_height (HeapNode.nil : HeapNode α) = -1
      ∧ (∀ v : α, recursive_height (HeapNode.node v .nil .nil) = 0)
      ∧ (∀ v : α, iterative_height (HeapNode.node v .nil .nil) = some 0)
      ∧ ∀ t : HeapNode α, t ≠ .nil → iterative_height t = some (recursive_height t) := by
  refine ⟨rfl, ?_, ?_, iterative_height_eq⟩
  · intro v
    simp [recursive_height]
  · intro v
    rw [iterative_height_node]
    simp [recursive_height]

/-- C5 witness: the amended agreement applied to the present single-node
tree ⟨0⟩. -/
theorem claim_C5_witness :
    iterative_height (HeapNode.node (0 : Int) .nil .nil)
      = some (recursive_height (HeapNode.node (0 : Int) .nil .nil)) :=
  (claim_C5 (α := Int)).2.2.2 _ (by decide)

/-- C6: on a freshly constructed empty tree (either strategy), `min`,
`max`, `height`, `remove_min`, `remove_max` and `retrieve(v)` for every
`v` return the absent outcome, every traversal sequence is empty,
`remove(v)` for every `v` is a no-op leaving size at 0, and no public
operation panics (the container's `height` guard returns `None` without
invoking the node-level BFS whose unwrap would panic on an absent
root). -/
theorem claim_C6 [LinearOrder α] :
    ((IterativeBST.new : IterativeBST α).min = none
      ∧ (IterativeBST.new : IterativeBST α).max = none
      ∧ (IterativeBST.new : IterativeBST α).height = none
      ∧ (IterativeBST.new : IterativeBST α).remove_min = (none, IterativeBST.new)
      ∧ (IterativeBST.new : IterativeBST α).remove_max = (none, IterativeBST.new)
      ∧ (∀ v : α, IterativeBST.new.retrieve v = none)
      ∧ (∀ v : α, IterativeBST.new.contains v = false)
      ∧ (IterativeBST.new : IterativeBST α).in_order_vec = []
      ∧ (IterativeBST.new : IterativeBST α).asc_order_vec = []
      ∧ (IterativeBST.new : IterativeBST α).pre_order_vec = []
      ∧ (IterativeBST.new : IterativeBST α).post_order_vec = []
      ∧ (IterativeBST.new : IterativeBST α).level_order_vec = []
      ∧ (IterativeBST.new : IterativeBST α).into_in_order_list = []
      ∧ (IterativeBST.new : IterativeBST α).into_pre_order_list = []
      ∧ (IterativeBST.new : IterativeBST α).into_post_order_list = []
      ∧ (IterativeBST.new : IterativeBST α).into_level_order_list = []
      ∧ (∀ v : α, IterativeBST.new.remove v = IterativeBST.new)
      ∧ (IterativeBST.new : IterativeBST α).size = 0
      ∧ (IterativeBST.new : IterativeBST α).is_empty = true)
    ∧ ((RecursiveBST.new : RecursiveBST α).min = none
      ∧ (RecursiveBST.new : RecursiveBST α).max = none
      ∧ (RecursiveBST.new : RecursiveBST α).height = none
      ∧ (RecursiveBST.new : RecursiveBST α).remove_min = (none, RecursiveBST.new)
      ∧ (RecursiveBST.new : RecursiveBST α).remove_max = (none, RecursiveBST.new)
      ∧ (∀ v : α, RecursiveBST.new.retrieve v = none)
      ∧ (∀ v : α, RecursiveBST.new.contains v = false)
      ∧ (RecursiveBST.new : RecursiveBST α).in_order_vec = []
      ∧ (RecursiveBST.new : RecursiveBST α).asc_order_vec = []
      ∧ (RecursiveBST.new : RecursiveBST α).pre_order_vec = []
      ∧ (RecursiveBST.new : RecursiveBST α).post_order_vec = []
      ∧ (RecursiveBST.new : RecursiveBST α).level_order_vec = []
      ∧ (RecursiveBST.new : RecursiveBST α).into_in_order_list = []
      ∧ (RecursiveBST.new : RecursiveBST α).into_pre_order_list = []
      ∧ (RecursiveBST.new : RecursiveBST α).into_post_order_list = []
      ∧ (RecursiveBST.new : RecursiveBST α).into_level_order_list = []
      ∧ (∀ v : α, RecursiveBST.new.remove v = RecursiveBST.new)
      ∧ (RecursiveBST.new : RecursiveBST α).size = 0
      ∧ (RecursiveBST.new : RecursiveBST α).is_empty = true) := by
  constructor
  · refine ⟨rfl, rfl, rfl, rfl, rfl, fun v => rfl, fun v => rfl,
      ?_, ?_, ?_, ?_, ?_, ?_, ?_, ?_, ?_, fun v => rfl, rfl, rfl⟩
    · rw [iterBST_in_order_vec_eq]; rfl
    · rw [IterativeBST.asc_order_vec, iterBST_in_order_vec_eq]; rfl
    · rw [iterBST_pre_order_vec_eq]; rfl
    · rw [iterBST_post_order_vec_eq]; rfl
    · rw [iterBST_level_order_vec_eq]; rfl
    · rw [IterativeBST.into_in_order_list, iterative_consume_in_order_vec_eq]; rfl
    · rw [IterativeBST.into_pre_order_list, iterative_consume_pre_order_vec_eq]; rfl
    · rw [IterativeBST.into_post_order_list, iterative_consume_post_order_vec_eq]; rfl
    · rw [IterativeBST.into_level_order_list, iterative_consume_level_order_vec_eq]; rfl
  · refine ⟨rfl, rfl, rfl, rfl, rfl, fun v => rfl, fun v => rfl,
      rfl, rfl, rfl, rfl, ?_, rfl, rfl, rfl, ?_, fun v => rfl, rfl, rfl⟩
    · rw [recBST_level_order_vec_eq]; rfl
    · rw [RecursiveBST.into_level_order_list, recursive_consume_level_order_vec_eq]; rfl

/-- C8: for every tree and every value `v` already present in it, a
second insert of `v` is rejected with no mutation, in both strategies
and at the container level: the tree's structure, its size, and the
result of `contains` for every value are unchanged. -/
theorem claim_C8 [LinearOrder α] (t : HeapNode α) (v : α)
    (h : iterative_contains v t = true) :
    iterative_insert v t = (t, false)
      ∧ (∀ (x : α) (l r : HeapNode α), t = .node x l r
          → recursive_insert v x l r = (t, false))
      ∧ (∀ n : Nat, (IterativeBST.mk t n).insert v = IterativeBST.mk t n)
      ∧ (∀ n : Nat, (RecursiveBST.mk t n).insert v = RecursiveBST.mk t n)
      ∧ (∀ w : α, iterative_contains w (iterative_insert v t).1
          = iterative_contains w t) := by
  have hpair : iterative_insert v t = (t, false) := by
    have h1 := iterative_insert_of_contains v t h
    have h2 := iterative_insert_snd v t
    rw [h] at h2
    simp only [Bool.not_true] at h2
    exact Prod.ext h1 h2
  refine ⟨hpair, ?_, ?_, ?_, fun w => by rw [hpair]⟩
  · intro x l r ht
    rw [recursive_insert_eq, ← ht, hpair]
  · intro n
    simp [IterativeBST.insert, hpair]
  · intro n
    cases ht : t with
    | nil => rw [ht, iterative_contains] at h; exact absurd h (by simp)
    | node x l r =>
      have h2 := recursive_insert_eq v x l r
      rw [← ht, hpair, ht] at h2
      subst ht
      simp [RecursiveBST.insert, h2]

/-- C8 witness: re-inserting 1 into the singleton tree ⟨1⟩ is rejected
with no mutation. -/
theorem claim_C8_witness :
    iterative_insert (1 : Int) (.node 1 .nil .nil) = (.node 1 .nil .nil, false) :=
  (claim_C8 _ 1 (by decide)).1

theorem foldl_insert_strategy [LinearOrder α] (l : List α) :
    ∀ (bi : IterativeBST α) (br : RecursiveBST α),
    bi.root = br.root → bi.size = br.size →
    (l.foldl (fun b v => b.insert v) bi).root = (l.foldl (fun b v => b.insert v) br).root
      ∧ (l.foldl (fun b v => b.insert v) bi).size
          = (l.foldl (fun b v => b.insert v) br).size := by
  induction l with
  | nil => intro bi br h1 h2; exact ⟨h1, h2⟩
  | cons v l ih =>
    intro bi br h1 h2
    have := applyOp_strategy_eq bi br h1 h2 (Op.ins v)
    exact ih (bi.insert v) (br.insert v) this.1 this.2

theorem fromVec_strategy_eq [LinearOrder α] (l : List α) :
    (RecursiveBST.fromVec l).root = (IterativeBST.fromVec l).root
      ∧ (RecursiveBST.fromVec l).size = (IterativeBST.fromVec l).size := by
  have := foldl_insert_strategy l IterativeBST.new RecursiveBST.new rfl rfl
  exact ⟨this.1.symm, this.2.symm⟩

theorem foldl_insert_spec [LinearOrder α] (l : List α) :
    ∀ (b : IterativeBST α), BST b.root →
      BST ((l.foldl (fun b v => b.insert v) b).root)
      ∧ (∀ y, y ∈ inOrder ((l.foldl (fun b v => b.insert v) b).root)
          ↔ y ∈ inOrder b.root ∨ y ∈ l) := by
  induction l with
  | nil =>
    intro b hb
    refine ⟨hb, fun y => ?_⟩
    simp
  | cons v l ih =>
    intro b hb
    have hb2 : BST (b.insert v).root := iterative_insert_BST v b.root hb
    obtain ⟨h1, h2⟩ := ih (b.insert v) hb2
    refine ⟨h1, fun y => ?_⟩
    rw [List.foldl_cons, h2 y,
      show (b.insert v).root = (iterative_insert v b.root).1 from rfl,
      iterative_insert_mem]
    simp only [List.mem_cons]
    tauto

/-- C7: for every input sequence of values, building a tree by inserting
each value in sequence order (as bulk construction from a vector does,
silently dropping duplicates) and reading back the ascending sequence
yields exactly the sorted deduplicated input — in both strategies. -/
theorem claim_C7 [LinearOrder α] (l : List α) :
    (IterativeBST.fromVec l).asc_order_vec = List.insertionSort (· ≤ ·) l.dedup
      ∧ (RecursiveBST.fromVec l).asc_order_vec = List.insertionSort (· ≤ ·) l.dedup := by
  have hspec := foldl_insert_spec l IterativeBST.new (by trivial)
  have hsortA : List.Sorted (· < ·) (inOrder (IterativeBST.fromVec l).root) :=
    BST_sorted _ hspec.1
  have hmemA : ∀ y, y ∈ inOrder (IterativeBST.fromVec l).root ↔ y ∈ l := by
    intro y
    rw [IterativeBST.fromVec, hspec.2 y]
    simp [IterativeBST.new, inOrder]
  have hpermB : List.Perm (List.insertionSort (· ≤ ·) l.dedup) l.dedup :=
    List.perm_insertionSort _ _
  have hndB : (List.insertionSort (· ≤ ·) l.dedup).Nodup :=
    hpermB.nodup_iff.2 (List.nodup_dedup l)
  have hsortB : List.Sorted (· < ·) (List.insertionSort (· ≤ ·) l.dedup) :=
    List.Sorted.lt_of_le (List.sorted_insertionSort _ _) hndB
  have hmemB : ∀ y, y ∈ List.insertionSort (· ≤ ·) l.dedup ↔ y ∈ l := fun y => by
    rw [hpermB.mem_iff, List.mem_dedup]
  have hperm : List.Perm (inOrder (IterativeBST.fromVec l).root)
      (List.insertionSort (· ≤ ·) l.dedup) := by
    rw [List.perm_ext_iff_of_nodup hsortA.nodup hndB]
    intro y
    rw [hmemA y, hmemB y]
  haveI : IsAntisymm α (· < ·) := ⟨fun a b h1 h2 => absurd h2 (lt_asymm h1)⟩
  have hAB : inOrder (IterativeBST.fromVec l).root
      = List.insertionSort (· ≤ ·) l.dedup :=
    List.eq_of_perm_of_sorted hperm hsortA hsortB
  constructor
  · rw [IterativeBST.asc_order_vec, iterBST_in_order_vec_eq]
    exact hAB
  · rw [show (RecursiveBST.fromVec l).asc_order_vec
        = inOrder (RecursiveBST.fromVec l).root from recursive_in_order_vec_eq _ [],
      (fromVec_strategy_eq l).1]
    exact hAB

theorem iterBST_height_of_root_node [LinearOrder α] (b : IterativeBST α)
    (x : α) (l r : HeapNode α) (h : b.root = .node x l r) :
    b.height = some (recursive_height b.root) := by
  rw [IterativeBST.height.eq_def, h]
  show iterative_height (HeapNode.node x l r) = some (recursive_height (HeapNode.node x l r))
  exact iterative_height_node x l r

theorem recBST_height_of_root_node [LinearOrder α] (b : RecursiveBST α)
    (x : α) (l r : HeapNode α) (h : b.root = .node x l r) :
    b.height = some (recursive_height b.root) := by
  rw [RecursiveBST.height.eq_def, h]

/-- C9: for the concrete insertion sequence 4, 6, 2, 7, 5, 3, 1 into an
empty tree (either strategy), the pre-order traversal is
[4,2,1,3,6,5,7], the in-order traversal is [1,2,3,4,5,6,7], the
post-order traversal is [1,3,2,5,7,6,4], the level-order traversal is
[4,2,6,1,3,5,7], and the height is 2. -/
theorem claim_C9 :
    (IterativeBST.fromVec [4, 6, 2, 7, 5, 3, 1] : IterativeBST Int).pre_order_vec
        = [4, 2, 1, 3, 6, 5, 7]
    ∧ (IterativeBST.fromVec [4, 6, 2, 7, 5, 3, 1] : IterativeBST Int).in_order_vec
        = [1, 2, 3, 4, 5, 6, 7]
    ∧ (IterativeBST.fromVec [4, 6, 2, 7, 5, 3, 1] : IterativeBST Int).post_order_vec
        = [1, 3, 2, 5, 7, 6, 4]
    ∧ (IterativeBST.fromVec [4, 6, 2, 7, 5, 3, 1] : IterativeBST Int).level_order_vec
        = [4, 2, 6, 1, 3, 5, 7]
    ∧ (IterativeBST.fromVec [4, 6, 2, 7, 5, 3, 1] : IterativeBST Int).height = some 2
    ∧ (RecursiveBST.fromVec [4, 6, 2, 7, 5, 3, 1] : RecursiveBST Int).pre_order_vec
        = [4, 2, 1, 3, 6, 5, 7]
    ∧ (RecursiveBST.fromVec [4, 6, 2, 7, 5, 3, 1] : RecursiveBST Int).in_order_vec
        = [1, 2, 3, 4, 5, 6, 7]
    ∧ (RecursiveBST.fromVec [4, 6, 2, 7, 5, 3, 1] : RecursiveBST Int).post_order_vec
        = [1, 3, 2, 5, 7, 6, 4]
    ∧ (RecursiveBST.fromVec [4, 6, 2, 7, 5, 3, 1] : RecursiveBST Int).level_order_vec
        = [4, 2, 6, 1, 3, 5, 7]
    ∧ (RecursiveBST.fromVec [4, 6, 2, 7, 5, 3, 1] : RecursiveBST Int).height = some 2 := by
  have hroot : (IterativeBST.fromVec [4, 6, 2, 7, 5, 3, 1] : IterativeBST Int).root
      = .node 4 (.node 2 (.node 1 .nil .nil) (.node 3 .nil .nil))
          (.node 6 (.node 5 .nil .nil) (.node 7 .nil .nil)) := by
    decide
  have hrootr : (RecursiveBST.fromVec [4, 6, 2, 7, 5, 3, 1] : RecursiveBST Int).root
      = .node 4 (.node 2 (.node 1 .nil .nil) (.node 3 .nil .nil))
          (.node 6 (.node 5 .nil .nil) (.node 7 .nil .nil)) := by
    rw [(fromVec_strategy_eq [4, 6, 2, 7, 5, 3, 1]).1, hroot]
  refine ⟨?_, ?_, ?_, ?_, ?_, ?_, ?_, ?_, ?_, ?_⟩
  · rw [iterBST_pre_order_vec_eq, hroot]; decide
  · rw [iterBST_in_order_vec_eq, hroot]; decide
  · rw [iterBST_post_order_vec_eq, hroot]; decide
  · rw [iterBST_level_order_vec_eq, hroot]; decide
  · rw [iterBST_height_of_root_node _ _ _ _ hroot, hroot]; decide
  · rw [recBST_pre_order_vec_eq, hrootr]; decide
  · rw [recBST_in_order_vec_eq, hrootr]; decide
  · rw [recBST_post_order_vec_eq, hrootr]; decide
  · rw [recBST_level_order_vec_eq, hrootr]; decide
  · rw [recBST_height_of_root_node _ _ _ _ hrootr, hrootr]; decide

end Claims

end BstRs
